import Mathlib

/-!
Verification development for the Spanmor chat-widget component
(`src/components/Chatbot.js`).  The text-processing core of the widget
(link extraction, typing-display sanitisation, the typewriter engine and
the send-message state handling) is shallowly embedded below: strings are
`List Char`, JavaScript regex scans are translated into explicit
left-to-right scanners with the same leftmost-match, continue-after-match
semantics, and the React state updates become pure functions on an
explicit state record.
-/

namespace SpanmorChat

/-- Strings of the embedded program are lists of characters. -/
abbrev Str := List Char

/-- Character list of a Lean string literal. -/
def str (s : String) : Str := s.data

/-- JavaScript regex whitespace class `\s`, restricted to the ASCII range
(the Unicode space characters are not modelled). -/
def isWs (c : Char) : Bool :=
  c == ' ' || c == '\t' || c == '\n' || c == '\r' || c == '\x0b' || c == '\x0c'

/-- The trailing-punctuation class `[)\]}>.,!?:;]` used by
`stripTrailingPunct` in `extractLinks`. -/
def isLinkPunct (c : Char) : Bool :=
  c == ')' || c == ']' || c == '}' || c == '>' || c == '.' || c == ',' ||
  c == '!' || c == '?' || c == ':' || c == ';'

/-- The trailing-punctuation class `[.!?…]` used by `normalizeInput`. -/
def isEndPunct (c : Char) : Bool :=
  c == '.' || c == '!' || c == '?' || c == '…'

/-- Remove a maximal trailing run of characters satisfying `p`. -/
def dropTrailing (p : Char → Bool) (s : Str) : Str :=
  (s.reverse.dropWhile p).reverse

/-- `String.prototype.trim` (ASCII whitespace). -/
def trimWs (s : Str) : Str :=
  ((s.dropWhile isWs).reverse.dropWhile isWs).reverse

theorem dropWhile_length_le (p : Char → Bool) :
    ∀ l : Str, (l.dropWhile p).length ≤ l.length := by
  intro l
  induction l with
  | nil => simp [List.dropWhile]
  | cons c r ih =>
    by_cases h : p c
    · simp only [List.dropWhile_cons_of_pos h, List.length_cons]
      omega
    · simp [List.dropWhile_cons_of_neg h]

/-- Worker for `collapseWs`; the flag records whether the scanner is
inside a whitespace run whose single replacement space was already
emitted. -/
def collapseWsAux : Bool → Str → Str
  | _, [] => []
  | inRun, c :: r =>
    if isWs c then
      if inRun then collapseWsAux true r else ' ' :: collapseWsAux true r
    else c :: collapseWsAux false r

/-- `raw.replace(/\s+/g, " ")`: collapse each maximal whitespace run to a
single space. -/
def collapseWs (s : Str) : Str := collapseWsAux false s

theorem collapseWsAux_true (r : Str) :
    collapseWsAux true r = collapseWsAux false (r.dropWhile isWs) := by
  induction r with
  | nil => simp [collapseWsAux]
  | cons d r2 ih =>
    by_cases h : isWs d
    · simp only [collapseWsAux, h, if_true, List.dropWhile_cons_of_pos h]
      exact ih
    · simp [collapseWsAux, h, List.dropWhile_cons_of_neg h]

/-- The replace-loop recurrence of `collapseWs`. -/
theorem collapseWs_cons (c : Char) (r : Str) :
    collapseWs (c :: r) =
      if isWs c then ' ' :: collapseWs (r.dropWhile isWs)
      else c :: collapseWs r := by
  by_cases h : isWs c <;>
    simp [collapseWs, collapseWsAux, h, collapseWsAux_true]

/-- `normalizeInput` (Chatbot.js lines 126-131): collapse whitespace runs,
trim, then drop one trailing run of `[.!?…]`. -/
def normalizeInput (text : Str) : Str :=
  dropTrailing isEndPunct (trimWs (collapseWs text))

/-- Does `pat` occur at the head of `s`? -/
def listStartsWith : Str → Str → Bool
  | [], _ => true
  | _ :: _, [] => false
  | p :: ps, c :: cs => p == c && listStartsWith ps cs

/-- Does `suf` occur at the end of `s`? -/
def listEndsWith (suf s : Str) : Bool :=
  listStartsWith suf.reverse s.reverse

/-- Length of the URL scheme `https?:\/\/` matching at the head of `s`
(the `https` alternative is preferred, as in regex matching). -/
def schemeLen (s : Str) : Option Nat :=
  if listStartsWith (str ("https://")) s then some 8
  else if listStartsWith (str ("http://")) s then some 7
  else none

/-- Length of a match of the bare-URL regex `https?:\/\/[^\s]+` starting
exactly at the head of `s`. -/
def matchBare (s : Str) : Option Nat :=
  match schemeLen s with
  | some k =>
    let run := (s.drop k).takeWhile (fun c => !(isWs c))
    if run.length == 0 then none else some (k + run.length)
  | none => none

theorem schemeLen_cases {s : Str} {k : Nat} (h : schemeLen s = some k) :
    k = 8 ∨ k = 7 := by
  unfold schemeLen at h
  split at h
  · simp only [Option.some.injEq] at h
    omega
  · split at h
    · simp only [Option.some.injEq] at h
      omega
    · simp at h

theorem matchBare_pos {s : Str} {n : Nat} (h : matchBare s = some n) : 0 < n := by
  unfold matchBare at h
  split at h
  case h_1 k hk =>
    dsimp only at h
    split at h
    · simp at h
    · have := schemeLen_cases hk
      simp only [Option.some.injEq] at h
      omega
  · simp at h

/-- Worker for `rb`: with `skip = k + 1`, the scanner is still inside a
match and discards `k + 1` more characters before resuming. -/
def rbAux : Nat → Str → Str
  | _, [] => []
  | skip + 1, _ :: r => rbAux skip r
  | 0, c :: r =>
    match matchBare (c :: r) with
    | some n => rbAux (n - 1) r
    | none => c :: rbAux 0 r

/-- One global pass of `s.replace(bareUrl, "")` (sanitiser rule 2):
remove every leftmost match of `https?:\/\/[^\s]+`, continuing the scan
after each match. -/
def rb (s : Str) : Str := rbAux 0 s

theorem rbAux_skip : ∀ (r : Str) (k : Nat), rbAux k r = rbAux 0 (r.drop k) := by
  intro r
  induction r with
  | nil => intro k; cases k <;> simp [rbAux]
  | cons c rest ih =>
    intro k
    cases k with
    | zero => simp
    | succ k2 => simpa [rbAux] using ih k2

/-- The replace-loop recurrence of `rb`: a leftmost match is dropped and
the scan resumes after it; otherwise the character is kept. -/
theorem rb_cons (c : Char) (rest : Str) :
    rb (c :: rest) =
      match matchBare (c :: rest) with
      | some n => rb ((c :: rest).drop n)
      | none => c :: rb rest := by
  show rbAux 0 (c :: rest) = _
  rw [rbAux]
  cases h : matchBare (c :: rest) with
  | none => rfl
  | some n =>
    have hn := matchBare_pos h
    simp only
    rw [rbAux_skip rest (n - 1)]
    show rb (rest.drop (n - 1)) = rb ((c :: rest).drop n)
    congr 1
    cases n with
    | zero => omega
    | succ n2 => simp

/-- A successful match of the complete-Markdown-link regex
`\[([^\]]+)\]\((https?:\/\/[^\s)]+)\)` at the head of the input. -/
structure MdMatch where
  label : Str
  url : Str
  len : Nat
deriving DecidableEq

/-- Try to match `\[([^\]]+)\]\((https?:\/\/[^\s)]+)\)` starting exactly at
the head of `s`. -/
def mdTryMatch (s : Str) : Option MdMatch :=
  match s with
  | '[' :: rest =>
    let label := rest.takeWhile (fun c => c != ']')
    if label.length == 0 then none else
    match rest.drop label.length with
    | ']' :: '(' :: rest2 =>
      match schemeLen rest2 with
      | some k =>
        let run := (rest2.drop k).takeWhile (fun c => !(isWs c) && c != ')')
        if run.length == 0 then none else
        match (rest2.drop k).drop run.length with
        | ')' :: _ =>
          some ⟨label, rest2.take k ++ run, 1 + label.length + 2 + k + run.length + 1⟩
        | _ => none
      | none => none
    | _ => none
  | _ => none

theorem mdTryMatch_pos {s : Str} {m : MdMatch} (h : mdTryMatch s = some m) :
    0 < m.len := by
  unfold mdTryMatch at h
  split at h
  · dsimp only at h
    split at h
    · simp at h
    · split at h
      · split at h
        · split at h
          · simp at h
          · split at h
            · simp only [Option.some.injEq] at h
              subst h
              simp
            · simp at h
        · simp at h
      · simp at h
  · simp at h

/-- Worker for `mdReplace` (skip counter as in `rbAux`). -/
def mdReplaceAux : Nat → Str → Str
  | _, [] => []
  | skip + 1, _ :: r => mdReplaceAux skip r
  | 0, c :: r =>
    match mdTryMatch (c :: r) with
    | some m => m.label ++ mdReplaceAux (m.len - 1) r
    | none => c :: mdReplaceAux 0 r

/-- One global pass of `s.replace(mdComplete, "$1")` (sanitiser rule 1):
each leftmost complete Markdown link is replaced by its raw label. -/
def mdReplace (s : Str) : Str := mdReplaceAux 0 s

theorem mdReplaceAux_skip :
    ∀ (r : Str) (k : Nat), mdReplaceAux k r = mdReplaceAux 0 (r.drop k) := by
  intro r
  induction r with
  | nil => intro k; cases k <;> simp [mdReplaceAux]
  | cons c rest ih =>
    intro k
    cases k with
    | zero => simp
    | succ k2 => simpa [mdReplaceAux] using ih k2

/-- The replace-loop recurrence of `mdReplace`. -/
theorem mdReplace_cons (c : Char) (rest : Str) :
    mdReplace (c :: rest) =
      match mdTryMatch (c :: rest) with
      | some m => m.label ++ mdReplace ((c :: rest).drop m.len)
      | none => c :: mdReplace rest := by
  show mdReplaceAux 0 (c :: rest) = _
  rw [mdReplaceAux]
  cases h : mdTryMatch (c :: rest) with
  | none => rfl
  | some m =>
    have hm := mdTryMatch_pos h
    simp only
    rw [mdReplaceAux_skip rest (m.len - 1)]
    show m.label ++ mdReplace (rest.drop (m.len - 1)) = m.label ++ mdReplace ((c :: rest).drop m.len)
    congr 2
    cases hl : m.len with
    | zero => omega
    | succ n2 => simp

/-- Leftmost match of the trailing-fragment regex `\[([^\]]+)\]\([^)]*$`
at the head: label of `[label](rest-without-close-paren` reaching the end. -/
def mdPartialHere (s : Str) : Option Str :=
  match s with
  | '[' :: rest =>
    let label := rest.takeWhile (fun c => c != ']')
    if label.length == 0 then none else
    match rest.drop label.length with
    | ']' :: '(' :: rest2 => if rest2.all (fun c => c != ')') then some label else none
    | _ => none
  | _ => none

/-- `s.replace(mdPartial, "$1")` when the regex matches: the matched
suffix (which always reaches the end of the line) is replaced by its
label; `none` when the regex does not match. -/
def mdPartialReplace : Str → Option Str
  | [] => none
  | c :: rest =>
    match mdPartialHere (c :: rest) with
    | some label => some label
    | none => (mdPartialReplace rest).map (fun t => c :: t)

/-- The `while (mdPartial.test(s) && guard++ < 10)` loop (sanitiser rule 3),
with its iteration cap as fuel. -/
def collapseLoop : Nat → Str → Str
  | 0, s => s
  | fuel + 1, s =>
    match mdPartialReplace s with
    | some s2 => collapseLoop fuel s2
    | none => s

/-- Split on a separator character, JavaScript `split` semantics
(`"".split` gives `[""]`, a trailing separator yields a final `""`). -/
def splitOnChar (sep : Char) : Str → List Str
  | [] => [[]]
  | c :: r =>
    if c = sep then [] :: splitOnChar sep r
    else
      match splitOnChar sep r with
      | [] => [[c]]
      | h :: t => (c :: h) :: t

/-- Join pieces with a separator character (inverse of `splitOnChar`). -/
def joinWithChar (sep : Char) : List Str → Str
  | [] => []
  | [l] => l
  | l :: ls => l ++ sep :: joinWithChar sep ls

/-- Per-line body of `sanitizeTypingDisplay`: rule 1 (complete links to
labels), rule 2 (bare URLs removed), rule 3 (trailing fragments collapsed,
at most 10 iterations). -/
def sanitizeLine (l : Str) : Str :=
  collapseLoop 10 (rb (mdReplace l))

/-- `sanitizeTypingDisplay` (Chatbot.js lines 76-97) on character lists. -/
def sanitizeCore (s : Str) : Str :=
  joinWithChar '\n' ((splitOnChar '\n' s).map sanitizeLine)

/-- `sanitizeTypingDisplay` on Lean strings. -/
def sanitizeTypingDisplay (text : String) : String :=
  ⟨sanitizeCore text.data⟩

/-- ASCII `toLowerCase`, as applied by the WHATWG URL parser to hostnames
(non-ASCII characters are not modelled). -/
def lowerChar (c : Char) : Char :=
  match c with
  | 'A' => 'a' | 'B' => 'b' | 'C' => 'c' | 'D' => 'd' | 'E' => 'e'
  | 'F' => 'f' | 'G' => 'g' | 'H' => 'h' | 'I' => 'i' | 'J' => 'j'
  | 'K' => 'k' | 'L' => 'l' | 'M' => 'm' | 'N' => 'n' | 'O' => 'o'
  | 'P' => 'p' | 'Q' => 'q' | 'R' => 'r' | 'S' => 's' | 'T' => 't'
  | 'U' => 'u' | 'V' => 'v' | 'W' => 'w' | 'X' => 'x' | 'Y' => 'y'
  | 'Z' => 'z' | c => c

/-- Parsed pieces of an absolute `http(s)` URL, as exposed by `new URL`:
`host` is the lowercased hostname, `path` the pathname (always starting
with a slash, `/` when empty), `query` the search string without its
leading question mark. -/
structure UrlParts where
  host : Str
  path : Str
  query : Str
deriving DecidableEq

/-- `new URL(u)` for the ASCII `http(s)` URLs the link regexes can
produce: the authority runs to the first of `/ ? #`, userinfo before `@`
and a `:port` are dropped from the hostname, the hostname is lowercased,
and an empty hostname makes parsing fail.  Percent-encoding, IDN and the
other WHATWG special cases are outside the modelled fragment. -/
def parseUrl (u : Str) : Option UrlParts :=
  match schemeLen u with
  | none => none
  | some k =>
    let rest := u.drop k
    let auth := rest.takeWhile (fun c => c != '/' && c != '?' && c != '#')
    let afterAuth := rest.drop auth.length
    let hostPort := (auth.reverse.takeWhile (fun c => c != '@')).reverse
    let host := (hostPort.takeWhile (fun c => c != ':')).map lowerChar
    if host.length == 0 then none
    else
      let pathRaw := afterAuth.takeWhile (fun c => c != '?' && c != '#')
      let path := if pathRaw.length == 0 then ['/'] else pathRaw
      let query :=
        match afterAuth.drop pathRaw.length with
        | '?' :: qs => qs.takeWhile (fun c => c != '#')
        | _ => []
      some ⟨host, path, query⟩

/-- `URLSearchParams` '+'-to-space decoding of a key or value
(percent-decoding is outside the modelled fragment). -/
def plusToSpace (s : Str) : Str :=
  s.map (fun c => if c = '+' then ' ' else c)

/-- Space-to-'+' on re-serialisation. -/
def spaceToPlus (s : Str) : Str :=
  s.map (fun c => if c = ' ' then '+' else c)

/-- `new URLSearchParams(query).entries()`: split on `&`, drop empty
segments, split each segment at the first `=` (missing `=` gives an empty
value). -/
def parsePairs (q : Str) : List (Str × Str) :=
  ((splitOnChar '&' q).filter (fun seg => seg.length != 0)).map (fun seg =>
    let k := seg.takeWhile (fun c => c != '=')
    (plusToSpace k, plusToSpace (seg.drop (k.length + 1))))

/-- The tracking-parameter filter of `normalizeKey`: keep `k` unless it
matches `/^utm_/i` or lowercases to `fbclid`. -/
def keepParam (kv : Str × Str) : Bool :=
  let kl := kv.1.map lowerChar
  !(listStartsWith (str ("utm_")) kl) && kl != str ("fbclid")

/-- `kept.toString()`: `k=v` pairs joined with `&`. -/
def serializePairs (ps : List (Str × Str)) : Str :=
  joinWithChar '&' (ps.map (fun kv => spaceToPlus kv.1 ++ '=' :: spaceToPlus kv.2))

/-- `stripTrailingPunct` in `extractLinks` (line 267): trim whitespace,
then drop one maximal trailing run of `[)\]}>.,!?:;]`. -/
def stripTrailingPunct (u : Str) : Str :=
  dropTrailing isLinkPunct (trimWs u)

/-- `host.replace(/^www\./, "")`. -/
def stripWww (h : Str) : Str :=
  if listStartsWith (str ("www.")) h then h.drop 4 else h

/-- Result of `normalizeKey`: the canonical dedup key and the canonical
(`www`-stripped) host it embeds. -/
structure KeyHost where
  key : Str
  host : Str
deriving DecidableEq

/-- `normalizeKey` in `extractLinks` (lines 269-288): strip trailing
punctuation, parse, lowercase the host and strip a leading `www.`, drop
`utm_*`/`fbclid` query parameters, drop a trailing path slash (root
exempted); parse failure gives `none`. -/
def normalizeKey (rawUrl : Str) : Option KeyHost :=
  match parseUrl (stripTrailingPunct rawUrl) with
  | none => none
  | some u =>
    let host := stripWww u.host
    let query := serializePairs ((parsePairs u.query).filter keepParam)
    let path :=
      if u.path.length > 1 && u.path.getLast? == some '/' then u.path.dropLast
      else u.path
    some ⟨host ++ path ++ (if query.length == 0 then [] else '?' :: query), host⟩

/-- A matched link candidate: the raw matched URL and its label (for a
Markdown link the trimmed `m[1]`, for a bare URL the match itself). -/
structure Cand where
  url : Str
  label : Str
deriving DecidableEq

/-- Worker for `scanMd` (skip counter as in `rbAux`). -/
def scanMdAux : Nat → Str → List Cand
  | _, [] => []
  | skip + 1, _ :: r => scanMdAux skip r
  | 0, c :: r =>
    match mdTryMatch (c :: r) with
    | some m => ⟨m.url, trimWs m.label⟩ :: scanMdAux (m.len - 1) r
    | none => scanMdAux 0 r

/-- The `md.exec` loop of `extractLinks` (lines 294-298): all complete
Markdown links in match order, with labels trimmed. -/
def scanMd (s : Str) : List Cand := scanMdAux 0 s

theorem scanMdAux_skip :
    ∀ (r : Str) (k : Nat), scanMdAux k r = scanMdAux 0 (r.drop k) := by
  intro r
  induction r with
  | nil => intro k; cases k <;> simp [scanMdAux]
  | cons c rest ih =>
    intro k
    cases k with
    | zero => simp
    | succ k2 => simpa [scanMdAux] using ih k2

/-- The exec-loop recurrence of `scanMd`. -/
theorem scanMd_cons (c : Char) (rest : Str) :
    scanMd (c :: rest) =
      match mdTryMatch (c :: rest) with
      | some m => ⟨m.url, trimWs m.label⟩ :: scanMd ((c :: rest).drop m.len)
      | none => scanMd rest := by
  show scanMdAux 0 (c :: rest) = _
  rw [scanMdAux]
  cases h : mdTryMatch (c :: rest) with
  | none => rfl
  | some m =>
    have hm := mdTryMatch_pos h
    simp only
    rw [scanMdAux_skip rest (m.len - 1)]
    show _ :: scanMd (rest.drop (m.len - 1)) = _ :: scanMd ((c :: rest).drop m.len)
    congr 2
    cases hl : m.len with
    | zero => omega
    | succ n2 => simp

/-- Worker for `scanBare` (skip counter as in `rbAux`). -/
def scanBareAux : Nat → Str → List Cand
  | _, [] => []
  | skip + 1, _ :: r => scanBareAux skip r
  | 0, c :: r =>
    match matchBare (c :: r) with
    | some n => ⟨(c :: r).take n, (c :: r).take n⟩ :: scanBareAux (n - 1) r
    | none => scanBareAux 0 r

/-- The `bare.exec` loop of `extractLinks` (lines 301-304): all bare URL
matches in match order. -/
def scanBare (s : Str) : List Cand := scanBareAux 0 s

theorem scanBareAux_skip :
    ∀ (r : Str) (k : Nat), scanBareAux k r = scanBareAux 0 (r.drop k) := by
  intro r
  induction r with
  | nil => intro k; cases k <;> simp [scanBareAux]
  | cons c rest ih =>
    intro k
    cases k with
    | zero => simp
    | succ k2 => simpa [scanBareAux] using ih k2

/-- The exec-loop recurrence of `scanBare`. -/
theorem scanBare_cons (c : Char) (rest : Str) :
    scanBare (c :: rest) =
      match matchBare (c :: rest) with
      | some n => ⟨(c :: rest).take n, (c :: rest).take n⟩ :: scanBare ((c :: rest).drop n)
      | none => scanBare rest := by
  show scanBareAux 0 (c :: rest) = _
  rw [scanBareAux]
  cases h : matchBare (c :: rest) with
  | none => rfl
  | some n =>
    have hn := matchBare_pos h
    simp only
    rw [scanBareAux_skip rest (n - 1)]
    show _ :: scanBare (rest.drop (n - 1)) = _ :: scanBare ((c :: rest).drop n)
    congr 2
    cases n with
    | zero => omega
    | succ n2 => simp

/-- The allow-list apex domain hard-coded in `extractLinks`. -/
def apexDomain : Str := str ("spanmor.com.au")

/-- The allow-list test of the dedup loop (line 335):
`host === "spanmor.com.au" || host.endsWith(".spanmor.com.au")`. -/
def allowB (host : Str) : Bool :=
  host == apexDomain || listEndsWith ('.' :: apexDomain) host

/-- The bare-URL inclusion heuristic (lines 313-323): parse the
punctuation-stripped URL; keep it when its (unstripped) lowercased host is
allow-listed and it has a query string or a path of depth above one. -/
def bareKeep (c : Cand) : Bool :=
  match parseUrl (stripTrailingPunct c.url) with
  | none => false
  | some u =>
    allowB u.host &&
      (u.query.length != 0 ||
        ((splitOnChar '/' u.path).filter (fun seg => seg.length != 0)).length > 1)

/-- The candidate selection of `extractLinks` (lines 306-326): Markdown
links first when any exist, followed by the bare URLs passing the
heuristic; otherwise all bare URLs. -/
def candidateList (s : Str) : List Cand :=
  let mds := scanMd s
  if mds.length != 0 then mds ++ (scanBare s).filter bareKeep else scanBare s

/-- An extracted link as stored on a bot message. -/
structure Link where
  url : Str
  label : Str
deriving DecidableEq

/-- The allow-list-and-dedup loop of `extractLinks` (lines 329-340), with
the `seen` key set made explicit. -/
def dedupLoop : List Cand → List Str → List Link
  | [], _ => []
  | it :: rest, seen =>
    match normalizeKey (stripTrailingPunct it.url) with
    | none => dedupLoop rest seen
    | some kh =>
      if kh.key.length == 0 || kh.host.length == 0 then dedupLoop rest seen
      else if !allowB kh.host then dedupLoop rest seen
      else if kh.key ∈ seen then dedupLoop rest seen
      else ⟨stripTrailingPunct it.url, it.label⟩ :: dedupLoop rest (kh.key :: seen)

/-- `extractLinks` (Chatbot.js lines 264-343). -/
def extractLinks (fullText : Str) : List Link :=
  dedupLoop (candidateList fullText) []

/-! ## Conversation state and the typewriter engine

`crypto.randomUUID()` is modelled by a fresh-id counter; the trio of refs
`typingTimerRef` / `typingMessageIdRef` / `typingFullTextRef` together with
the tick closure's counter `i` is modelled as an optional `TypingSession`
(the code always clears the timer and the target id together, and reads
the full-text ref only while the timer is active). -/

inductive Role where
  | user
  | bot
deriving DecidableEq

structure Message where
  id : Nat
  role : Role
  text : Str
  links : List Link
deriving DecidableEq

structure TypingSession where
  msgId : Nat
  fullText : Str
  revealed : Nat
deriving DecidableEq

structure ChatState where
  messages : List Message
  nextId : Nat
  session : Option TypingSession
  input : Str
  sessionId : Str
  route : Str
  sending : Bool
deriving DecidableEq

/-- `setMessages` with `findIndex` on an id: replace the text of the first
message carrying `i`; no change when absent. -/
def updateById (ms : List Message) (i : Nat) (t : Str) : List Message :=
  match ms with
  | [] => []
  | m :: rest =>
    if m.id = i then { m with text := t } :: rest else m :: updateById rest i t

/-- First message carrying id `i`. -/
def lookupMsg (ms : List Message) (i : Nat) : Option Message :=
  match ms with
  | [] => none
  | m :: rest => if m.id = i then some m else lookupMsg rest i

/-- The finalisation prologue of `typeOutBotMessage` (lines 350-369): if a
typing session is active, set its target message's text to the session's
full text and clear the timer and refs. -/
def finalizeTyping (s : ChatState) : ChatState :=
  match s.session with
  | some sess =>
    { s with messages := updateById s.messages sess.msgId sess.fullText,
             session := none }
  | none => s

/-- `typeOutBotMessage` (lines 345-413), synchronous part: finalise any
active session, then (unless the trimmed text is empty) append a fresh
empty bot message carrying the precomputed links and start a new session
on it. -/
def typeOutBotMessage (s : ChatState) (fullText : Str) : ChatState :=
  let text := trimWs fullText
  let s1 := finalizeTyping s
  if text.length = 0 then s1
  else
    { s1 with
      messages := s1.messages ++ [⟨s1.nextId, Role.bot, [], extractLinks text⟩],
      nextId := s1.nextId + 1,
      session := some ⟨s1.nextId, text, 0⟩ }

/-- One `setInterval` callback of the typewriter (lines 388-410):
increment the counter, reveal that many characters of the full text on the
target message, and stop the timer once the counter reaches the length. -/
def tick (s : ChatState) : ChatState :=
  match s.session with
  | none => s
  | some sess =>
    let i2 := sess.revealed + 1
    let msgs := updateById s.messages sess.msgId (sess.fullText.take i2)
    if sess.fullText.length ≤ i2 then
      { s with messages := msgs, session := none }
    else
      { s with messages := msgs, session := some ⟨sess.msgId, sess.fullText, i2⟩ }

/-- `addMessage` (lines 257-260). -/
def addMessage (s : ChatState) (r : Role) (t : Str) : ChatState :=
  { s with messages := s.messages ++ [⟨s.nextId, r, t, []⟩],
           nextId := s.nextId + 1 }

/-- The JSON body posted to `/api/chat` (the fields the component
computes; `action` and `metadata` are constants). -/
structure Payload where
  sessionId : Str
  route : Str
  chatInput : Str
deriving DecidableEq

/-- `sendMessage` (lines 429-444) up to the `fetch`: the guard, the
displayed user message (trimmed input), clearing the input box, setting
the sending flag, and the payload (normalized input). -/
def sendMessageStart (s : ChatState) : ChatState × Option Payload :=
  let display := trimWs s.input
  let message := normalizeInput s.input
  if message.length = 0 || s.sessionId.length = 0 || s.sending then (s, none)
  else
    ({ addMessage s Role.user display with input := [], sending := true },
     some ⟨s.sessionId, s.route, message⟩)

/-- `sendQuickMessage` (lines 471-486) up to the `fetch`; the input box is
not cleared here. -/
def sendQuickMessageStart (s : ChatState) (quickText : Str) (sendText : Option Str) :
    ChatState × Option Payload :=
  let display := trimWs quickText
  let message := normalizeInput (sendText.getD quickText)
  if message.length = 0 || s.sessionId.length = 0 || s.sending then (s, none)
  else
    ({ addMessage s Role.user display with sending := true },
     some ⟨s.sessionId, s.route, message⟩)

/-- The shape of a parsed webhook response body relevant to the component:
an object with an optional string `output`, or an array of such values. -/
inductive ChatJson where
  | obj (output : Option Str)
  | arr (elems : List ChatJson)

/-- Outcome of the `fetch`: a resolved response whose body parsed to
`body` (`none` on a JSON parse failure), or a rejected request. -/
inductive FetchOutcome where
  | success (body : Option ChatJson)
  | reject

/-- `x?.output` on a parsed JSON value. -/
def outputField : ChatJson → Option Str
  | .obj o => o
  | .arr _ => none

def defaultReply : Str := str ("Hi! I'm here to help you.")

def apologyReply : Str := str ("Sorry, there was a problem sending your message.")

/-- `Array.isArray(data) ? data?.[0]?.output : data?.output` followed by
`botReply || "Hi! I'm here to help you."` (lines 458-461). -/
def extractReply (data : Option ChatJson) : Str :=
  let botReply : Option Str :=
    match data with
    | none => none
    | some (.arr []) => none
    | some (.arr (x :: _)) => outputField x
    | some (.obj o) => o
  match botReply with
  | some r => if r.length = 0 then defaultReply else r
  | none => defaultReply

/-- Is the `output` field of the response (single object or first array
element) present and truthy? -/
def truthyOutput (data : Option ChatJson) : Bool :=
  match data with
  | none => false
  | some (.arr []) => false
  | some (.arr (x :: _)) =>
    match outputField x with
    | some r => r.length != 0
    | none => false
  | some (.obj (some r)) => r.length != 0
  | some (.obj none) => false

/-- Completion of `sendMessage` (lines 452-467): on a resolved request,
clear the sending flag and type out the reply (default-substituted); on a
rejected request, clear the flag and append the apology bot message. -/
def sendMessageResolve (s : ChatState) (o : FetchOutcome) : ChatState :=
  match o with
  | .success body => typeOutBotMessage { s with sending := false } (extractReply body)
  | .reject => addMessage { s with sending := false } Role.bot apologyReply

/-- Completion of `sendQuickMessage` (lines 494-508), identical response
handling. -/
def sendQuickMessageResolve (s : ChatState) (o : FetchOutcome) : ChatState :=
  match o with
  | .success body => typeOutBotMessage { s with sending := false } (extractReply body)
  | .reject => addMessage { s with sending := false } Role.bot apologyReply

/-- Pairwise-distinct id list. -/
def nodupIds : List Nat → Bool
  | [] => true
  | x :: r => !(r.contains x) && nodupIds r

/-- Well-formedness of a chat state: message ids are pairwise distinct and
below the fresh-id counter, and an active typing session points at an
existing message whose text is the already-revealed prefix of the
session's full text, with more left to reveal. -/
def WFb (s : ChatState) : Bool :=
  nodupIds (s.messages.map Message.id) &&
  s.messages.all (fun m => decide (m.id < s.nextId)) &&
  (match s.session with
   | none => true
   | some sess =>
     decide (sess.revealed < sess.fullText.length) &&
     (match lookupMsg s.messages sess.msgId with
      | some m => m.text == sess.fullText.take sess.revealed
      | none => false))

/-! ## General list facts used throughout -/

theorem takeWhile_append_of_all {p : Char → Bool} :
    ∀ {a : Str} (b : Str), a.all p = true →
      (a ++ b).takeWhile p = a ++ b.takeWhile p := by
  intro a
  induction a with
  | nil => intro b _; simp
  | cons x xs ih =>
    intro b h
    simp only [List.all_cons, Bool.and_eq_true] at h
    simp only [List.cons_append, List.takeWhile_cons_of_pos h.1]
    rw [ih b h.2]

theorem takeWhile_eq_self_of_all {p : Char → Bool} {a : Str}
    (h : a.all p = true) : a.takeWhile p = a := by
  have := takeWhile_append_of_all (p := p) (a := a) [] h
  simpa using this

theorem dropWhile_append_of_all {p : Char → Bool} :
    ∀ {a : Str} (b : Str), a.all p = true →
      (a ++ b).dropWhile p = b.dropWhile p := by
  intro a
  induction a with
  | nil => intro b _; simp
  | cons x xs ih =>
    intro b h
    simp only [List.all_cons, Bool.and_eq_true] at h
    simp only [List.cons_append, List.dropWhile_cons_of_pos h.1]
    exact ih b h.2

theorem dropWhile_eq_nil_of_all {p : Char → Bool} {a : Str}
    (h : a.all p = true) : a.dropWhile p = [] := by
  have := dropWhile_append_of_all (p := p) (a := a) [] h
  simpa using this

theorem dropWhile_eq_self_of_all_neg {p : Char → Bool} {l : Str}
    (h : l.all (fun c => !(p c)) = true) : l.dropWhile p = l := by
  cases l with
  | nil => rfl
  | cons x xs =>
    simp only [List.all_cons, Bool.and_eq_true, Bool.not_eq_true'] at h
    exact List.dropWhile_cons_of_neg (by simp [h.1])

theorem drop_length_takeWhile (p : Char → Bool) :
    ∀ l : Str, l.drop (l.takeWhile p).length = l.dropWhile p := by
  intro l
  induction l with
  | nil => simp
  | cons x xs ih =>
    by_cases h : p x
    · simp only [List.takeWhile_cons_of_pos h, List.length_cons, List.drop_succ_cons,
        List.dropWhile_cons_of_pos h]
      exact ih
    · simp [List.takeWhile_cons_of_neg h, List.dropWhile_cons_of_neg h]

theorem dropWhile_head_false {p : Char → Bool} {l : Str} {x : Char} {xs : Str}
    (h : l.dropWhile p = x :: xs) : p x = false := by
  have := List.head?_dropWhile_not p l
  rw [h] at this
  simpa using this

theorem mem_of_mem_takeWhile {p : Char → Bool} {l : Str} {c : Char}
    (h : c ∈ l.takeWhile p) : c ∈ l :=
  (List.takeWhile_sublist p).subset h

theorem mem_of_mem_drop {n : Nat} {l : Str} {c : Char}
    (h : c ∈ l.drop n) : c ∈ l :=
  List.drop_subset n l h

/-! ## C7: the send guards -/

/-- **C7.** If `sendMessage` or `sendQuickMessage` runs while the
normalized input is empty, or no session id exists, or a send is already
outstanding, the operation is a no-op: the state is unchanged and no
request payload is produced. -/
theorem c7_send_guard_noop :
    ∀ (s : ChatState) (q : Str) (st : Option Str),
      (normalizeInput s.input = [] ∨ s.sessionId = [] ∨ s.sending = true →
        sendMessageStart s = (s, none)) ∧
      (normalizeInput (st.getD q) = [] ∨ s.sessionId = [] ∨ s.sending = true →
        sendQuickMessageStart s q st = (s, none)) := by
  intro s q st
  constructor
  · intro h
    unfold sendMessageStart
    rcases h with h | h | h <;> simp [h]
  · intro h
    unfold sendQuickMessageStart
    rcases h with h | h | h <;> simp [h]

/-- Witness for C7 at a concrete state: empty input with a session id. -/
theorem c7_send_guard_noop_witness :
    sendMessageStart ⟨[], 0, none, [], str ("sid"), str ("general"), false⟩ =
      (⟨[], 0, none, [], str ("sid"), str ("general"), false⟩, none) ∧
    sendQuickMessageStart ⟨[], 0, none, [], [], str ("general"), false⟩
        (str ("I need to start a quote with my deck size")) none =
      (⟨[], 0, none, [], [], str ("general"), false⟩, none) :=
  ⟨(c7_send_guard_noop ⟨[], 0, none, [], str ("sid"), str ("general"), false⟩
      [] none).1 (Or.inl (by decide)),
   (c7_send_guard_noop ⟨[], 0, none, [], [], str ("general"), false⟩
      (str ("I need to start a quote with my deck size")) none).2
      (Or.inr (Or.inl (by decide)))⟩

/-! ## C10: displayed vs transmitted text in `sendMessage` -/

theorem isEndPunct_not_ws {c : Char} (h : isEndPunct c = true) : isWs c = false := by
  simp only [isEndPunct, Bool.or_eq_true, beq_iff_eq] at h
  rcases h with ((h | h) | h) | h <;> subst h <;> decide

theorem collapseWs_nonws_append {b : Str} (r : Str)
    (h : b.all (fun c => !(isWs c)) = true) :
    collapseWs (b ++ r) = b ++ collapseWs r := by
  induction b with
  | nil => simp
  | cons x b2 ih =>
    simp only [List.all_cons, Bool.and_eq_true, Bool.not_eq_true'] at h
    simp only [List.cons_append, collapseWs_cons, h.1, Bool.false_eq_true, if_false]
    rw [ih (by simpa using h.2)]

theorem collapseWs_ws_cons {x : Char} {a : Str} (r : Str)
    (hx : isWs x = true) (h : a.all isWs = true) :
    collapseWs ((x :: a) ++ r) = ' ' :: collapseWs (r.dropWhile isWs) := by
  simp only [List.cons_append, collapseWs_cons, hx, if_true]
  rw [dropWhile_append_of_all r h]

theorem trimWs_sandwich {pre mid post : Str}
    (hpre : pre.all isWs = true) (hmid : mid.all (fun c => !(isWs c)) = true)
    (hpost : post.all isWs = true) :
    trimWs (pre ++ mid ++ post) = mid := by
  unfold trimWs
  rw [List.append_assoc, dropWhile_append_of_all (mid ++ post) hpre]
  cases mid with
  | nil =>
    simp only [List.nil_append]
    rw [dropWhile_eq_nil_of_all hpost]
    simp
  | cons y mid2 =>
    simp only [List.all_cons, Bool.and_eq_true, Bool.not_eq_true'] at hmid
    simp only [List.cons_append]
    have h1 : List.dropWhile isWs (y :: (mid2 ++ post)) = y :: (mid2 ++ post) :=
      List.dropWhile_cons_of_neg (by simp [hmid.1])
    rw [h1, List.reverse_cons, List.reverse_append, List.append_assoc]
    rw [dropWhile_append_of_all _ (by simpa using hpost)]
    rw [dropWhile_eq_self_of_all_neg (by
      simp only [List.all_append, List.all_reverse, Bool.and_eq_true]
      refine ⟨by simpa using hmid.2, by simp [hmid.1]⟩)]
    simp

theorem collapseWs_sandwich {a b c : Str}
    (ha : a.all isWs = true) (hb : b.all isEndPunct = true) (hc : c.all isWs = true) :
    ∃ pre post : Str, pre.all isWs = true ∧ post.all isWs = true ∧
      collapseWs (a ++ (b ++ c)) = pre ++ b ++ post := by
  have hbn : b.all (fun ch => !(isWs ch)) = true := by
    rw [List.all_eq_true] at hb ⊢
    intro ch hch
    simp [isEndPunct_not_ws (hb ch hch)]
  have hcollapse_c : collapseWs c = [] ∨ collapseWs c = [' '] := by
    cases c with
    | nil => left; rfl
    | cons x c2 =>
      right
      simp only [List.all_cons, Bool.and_eq_true] at hc
      have := collapseWs_ws_cons (x := x) (a := c2) [] hc.1 (by simpa using hc.2)
      simpa [List.dropWhile] using this
  cases a with
  | nil =>
    rw [List.nil_append, collapseWs_nonws_append c hbn]
    rcases hcollapse_c with h | h <;> rw [h]
    · exact ⟨[], [], by decide, by decide, by simp⟩
    · exact ⟨[], [' '], by decide, by decide, by simp⟩
  | cons x a2 =>
    simp only [List.all_cons, Bool.and_eq_true] at ha
    rw [collapseWs_ws_cons (b ++ c) ha.1 (by simpa using ha.2)]
    cases b with
    | nil =>
      rw [List.nil_append, dropWhile_eq_nil_of_all hc]
      exact ⟨[' '], [], by decide, by decide, by simp [collapseWs, collapseWsAux]⟩
    | cons y b2 =>
      have hy : isWs y = false := by
        simp only [List.all_cons, Bool.and_eq_true] at hb
        exact isEndPunct_not_ws hb.1
      simp only [List.cons_append]
      have hdw : List.dropWhile isWs (y :: (b2 ++ c)) = y :: (b2 ++ c) :=
        List.dropWhile_cons_of_neg (by simp [hy])
      rw [hdw]
      have hbc : collapseWs (y :: (b2 ++ c)) = (y :: b2) ++ collapseWs c := by
        have := collapseWs_nonws_append (b := y :: b2) c hbn
        simpa using this
      rw [hbc]
      rcases hcollapse_c with h | h <;> rw [h]
      · exact ⟨[' '], [], by decide, by decide, by simp⟩
      · exact ⟨[' '], [' '], by decide, by decide, by simp⟩

theorem normalizeInput_punct_block {a b c : Str}
    (ha : a.all isWs = true) (hb : b.all isEndPunct = true) (hc : c.all isWs = true) :
    normalizeInput (a ++ (b ++ c)) = [] := by
  obtain ⟨pre, post, hpre, hpost, heq⟩ := collapseWs_sandwich ha hb hc
  unfold normalizeInput
  rw [heq]
  rw [trimWs_sandwich hpre (by
    rw [List.all_eq_true] at hb ⊢
    intro ch hch
    simp [isEndPunct_not_ws (hb ch hch)]) hpost]
  unfold dropTrailing
  rw [dropWhile_eq_nil_of_all (by simpa using hb)]
  rfl

/-- **C10 (amended).** `sendMessage` displays the merely-trimmed raw input
but transmits the normalized input (whitespace collapsed, trimmed, one
trailing punctuation run removed); an input consisting of whitespace, or
of a single punctuation block surrounded by whitespace, normalizes to
empty and is neither sent nor displayed. -/
theorem c10_display_vs_sent :
    ∀ s : ChatState,
      (normalizeInput s.input ≠ [] → s.sessionId ≠ [] → s.sending = false →
        sendMessageStart s =
          ({ s with
               messages := s.messages ++ [⟨s.nextId, Role.user, trimWs s.input, []⟩],
               nextId := s.nextId + 1, input := [], sending := true },
           some ⟨s.sessionId, s.route, normalizeInput s.input⟩)) ∧
      (∀ a b c : Str, a.all isWs = true → b.all isEndPunct = true →
        c.all isWs = true → s.input = a ++ (b ++ c) →
        normalizeInput s.input = [] ∧ sendMessageStart s = (s, none)) := by
  intro s
  constructor
  · intro h1 h2 h3
    unfold sendMessageStart
    rw [if_neg]
    · rfl
    · simp [h1, h3, List.length_eq_zero, h2]
  · intro a b c ha hb hc hin
    have hz : normalizeInput s.input = [] := by
      rw [hin]; exact normalizeInput_punct_block ha hb hc
    refine ⟨hz, ?_⟩
    unfold sendMessageStart
    rw [if_pos]
    simp [hz]

/-- Witness for C10: `"Hi there!!"` is displayed as typed but transmitted
as `"Hi there"`, and the pure punctuation block `" ...  "` is a no-op. -/
theorem c10_display_vs_sent_witness :
    sendMessageStart ⟨[], 5, none, str ("Hi there!!"), str ("sid"), str ("general"), false⟩ =
      ({ messages := [⟨5, Role.user, str ("Hi there!!"), []⟩], nextId := 6,
         session := none, input := [], sessionId := str ("sid"),
         route := str ("general"), sending := true },
       some ⟨str ("sid"), str ("general"), str ("Hi there")⟩) ∧
    (normalizeInput (str (" ...  ")) = [] ∧
      sendMessageStart ⟨[], 5, none, str (" ...  "), str ("sid"), str ("general"), false⟩ =
        (⟨[], 5, none, str (" ...  "), str ("sid"), str ("general"), false⟩, none)) := by
  constructor
  · have := (c10_display_vs_sent
      ⟨[], 5, none, str ("Hi there!!"), str ("sid"), str ("general"), false⟩).1
      (by decide) (by decide) (by decide)
    rw [this]
    decide
  · exact (c10_display_vs_sent
      ⟨[], 5, none, str (" ...  "), str ("sid"), str ("general"), false⟩).2
      (str (" ")) (str ("...")) (str ("  "))
      (by decide) (by decide) (by decide) (by decide)

/-- **C10, counterexample to the claim as stated.** The input `". ?"`
consists only of the trailing-punctuation characters and whitespace, yet
it does not normalize to empty (the internal space interrupts the trailing
run), and it is both sent and displayed. -/
theorem c10_counterexample :
    (str (". ?")).all (fun c => isWs c || isEndPunct c) = true ∧
    normalizeInput (str (". ?")) ≠ [] ∧
    sendMessageStart ⟨[], 0, none, str (". ?"), str ("sid"), str ("general"), false⟩ ≠
      (⟨[], 0, none, str (". ?"), str ("sid"), str ("general"), false⟩, none) := by
  refine ⟨by decide, by decide, by decide⟩

/-! ## C5 and C6: the typewriter engine -/

theorem lookupMsg_cons (m : Message) (rest : List Message) (i : Nat) :
    lookupMsg (m :: rest) i = if m.id = i then some m else lookupMsg rest i := rfl

theorem updateById_cons (m : Message) (rest : List Message) (i : Nat) (t : Str) :
    updateById (m :: rest) i t =
      if m.id = i then { m with text := t } :: rest
      else m :: updateById rest i t := rfl

theorem lookupMsg_append_some {ms : List Message} {i : Nat} {m : Message}
    (l2 : List Message) (h : lookupMsg ms i = some m) :
    lookupMsg (ms ++ l2) i = some m := by
  induction ms with
  | nil => simp [lookupMsg] at h
  | cons x rest ih =>
    rw [lookupMsg_cons] at h
    by_cases hx : x.id = i
    · rw [if_pos hx] at h
      simp only [List.cons_append, lookupMsg_cons, if_pos hx]
      exact h
    · rw [if_neg hx] at h
      simp only [List.cons_append, lookupMsg_cons, if_neg hx]
      exact ih h

theorem lookupMsg_append_none {ms : List Message} {i : Nat}
    (l2 : List Message) (h : ∀ m ∈ ms, m.id ≠ i) :
    lookupMsg (ms ++ l2) i = lookupMsg l2 i := by
  induction ms with
  | nil => simp
  | cons x rest ih =>
    have hx : x.id ≠ i := h x (by simp)
    simp only [List.cons_append, lookupMsg_cons, if_neg hx]
    exact ih (fun m hm => h m (by simp [hm]))

theorem lookupMsg_update_self {ms : List Message} {i : Nat} {m : Message} (t : Str)
    (h : lookupMsg ms i = some m) :
    lookupMsg (updateById ms i t) i = some { m with text := t } := by
  induction ms with
  | nil => simp [lookupMsg] at h
  | cons x rest ih =>
    rw [lookupMsg_cons] at h
    by_cases hx : x.id = i
    · rw [if_pos hx] at h
      rw [updateById_cons, if_pos hx, lookupMsg_cons]
      simp only [Option.some.injEq] at h
      rw [if_pos (by simpa using hx)]
      rw [h]
    · rw [if_neg hx] at h
      rw [updateById_cons, if_neg hx, lookupMsg_cons, if_neg hx]
      exact ih h

theorem updateById_map_id (ms : List Message) (i : Nat) (t : Str) :
    (updateById ms i t).map Message.id = ms.map Message.id := by
  induction ms with
  | nil => rfl
  | cons x rest ih =>
    unfold updateById
    by_cases hx : x.id = i
    · simp [hx]
    · simp [hx, ih]

theorem lookupMsg_map_id_none {ms : List Message} {i : Nat}
    (h : i ∉ ms.map Message.id) : ∀ m ∈ ms, m.id ≠ i := by
  intro m hm heq
  exact h (by simpa [heq] using List.mem_map_of_mem Message.id hm)

theorem contains_eq_false_iff {l : List Nat} {x : Nat} :
    l.contains x = false ↔ x ∉ l := by
  induction l with
  | nil => simp
  | cons y rest ih =>
    simp only [List.contains_cons, Bool.or_eq_false_iff, beq_eq_false_iff_ne,
      ih, List.mem_cons, not_or, ne_eq]

theorem nodupIds_cons (y : Nat) (rest : List Nat) :
    nodupIds (y :: rest) = (!(rest.contains y) && nodupIds rest) := rfl

theorem nodupIds_append_fresh {l : List Nat} {n : Nat}
    (h1 : nodupIds l = true) (h2 : ∀ x ∈ l, x ≠ n) :
    nodupIds (l ++ [n]) = true := by
  induction l with
  | nil => simp [nodupIds]
  | cons y rest ih =>
    rw [nodupIds_cons] at h1
    simp only [List.cons_append, nodupIds_cons]
    simp only [Bool.and_eq_true, Bool.not_eq_true'] at h1 ⊢
    refine ⟨?_, ih h1.2 (fun x hx => h2 x (by simp [hx]))⟩
    rw [contains_eq_false_iff] at h1 ⊢
    simp only [List.mem_append, List.mem_singleton, not_or]
    exact ⟨h1.1, fun hy => h2 y (by simp) hy⟩

/-- **C5 (single flight).** Starting `typeOutBotMessage` with a non-empty
text while a session is active first sets the prior session's target
message to the complete full text (no truncation) and then starts the one
new session, preserving well-formedness. -/
theorem c5_single_flight :
    ∀ (s : ChatState) (sess : TypingSession) (t : Str),
      WFb s = true → s.session = some sess → trimWs t ≠ [] →
      (lookupMsg (typeOutBotMessage s t).messages sess.msgId).map Message.text
          = some sess.fullText ∧
      (typeOutBotMessage s t).session = some ⟨s.nextId, trimWs t, 0⟩ ∧
      WFb (typeOutBotMessage s t) = true := by
  intro s sess t hwf hsess ht
  have htlen : ¬ (trimWs t).length = 0 := by
    simpa [List.length_eq_zero] using ht
  simp only [WFb, hsess, Bool.and_eq_true, decide_eq_true_eq] at hwf
  obtain ⟨⟨hnodup, hbound⟩, hlt, hlook⟩ := hwf
  obtain ⟨m, hm⟩ : ∃ m, lookupMsg s.messages sess.msgId = some m := by
    cases hl : lookupMsg s.messages sess.msgId with
    | none => rw [hl] at hlook; simp at hlook
    | some m => exact ⟨m, rfl⟩
  have hfin : finalizeTyping s =
      { s with messages := updateById s.messages sess.msgId sess.fullText,
               session := none } := by
    unfold finalizeTyping
    rw [hsess]
  have hout : typeOutBotMessage s t =
      { s with
        messages := updateById s.messages sess.msgId sess.fullText ++
          [⟨s.nextId, Role.bot, [], extractLinks (trimWs t)⟩],
        nextId := s.nextId + 1,
        session := some ⟨s.nextId, trimWs t, 0⟩ } := by
    unfold typeOutBotMessage
    rw [hfin, if_neg htlen]
  have hup : lookupMsg (updateById s.messages sess.msgId sess.fullText) sess.msgId
      = some { m with text := sess.fullText } := lookupMsg_update_self _ hm
  have hids : (updateById s.messages sess.msgId sess.fullText).map Message.id
      = s.messages.map Message.id := updateById_map_id _ _ _
  have hfreshup : ∀ m2 ∈ updateById s.messages sess.msgId sess.fullText,
      m2.id ≠ s.nextId := by
    intro m2 hm2
    have : m2.id ∈ (updateById s.messages sess.msgId sess.fullText).map Message.id :=
      List.mem_map_of_mem Message.id hm2
    rw [hids] at this
    obtain ⟨m3, hm3, hm3id⟩ := List.mem_map.mp this
    rw [List.all_eq_true] at hbound
    have := hbound m3 hm3
    simp only [decide_eq_true_eq] at this
    omega
  refine ⟨?_, ?_, ?_⟩
  · rw [hout]
    simp only
    rw [lookupMsg_append_some _ hup]
    rfl
  · rw [hout]
  · rw [hout]
    simp only [WFb, Bool.and_eq_true, decide_eq_true_eq]
    refine ⟨⟨?_, ?_⟩, ?_, ?_⟩
    · simp only [List.map_append, hids, List.map_cons, List.map_nil]
      refine nodupIds_append_fresh hnodup ?_
      intro x hx
      obtain ⟨m3, hm3, hm3id⟩ := List.mem_map.mp hx
      rw [List.all_eq_true] at hbound
      have := hbound m3 hm3
      simp only [decide_eq_true_eq] at this
      omega
    · rw [List.all_eq_true]
      intro m2 hm2
      simp only [List.mem_append, List.mem_singleton] at hm2
      simp only [decide_eq_true_eq]
      rcases hm2 with hm2 | hm2
      · have : m2.id ∈ (updateById s.messages sess.msgId sess.fullText).map Message.id :=
          List.mem_map_of_mem Message.id hm2
        rw [hids] at this
        obtain ⟨m3, hm3, hm3id⟩ := List.mem_map.mp this
        rw [List.all_eq_true] at hbound
        have := hbound m3 hm3
        simp only [decide_eq_true_eq] at this
        omega
      · rw [hm2]
        simp
    · omega
    · rw [lookupMsg_append_none _ hfreshup]
      unfold lookupMsg
      rw [if_pos rfl]
      simp

/-- Witness for C5: a first message typing, a second `typeOutBotMessage`
finalises it losslessly. -/
theorem c5_single_flight_witness :
    (lookupMsg (typeOutBotMessage
        (typeOutBotMessage ⟨[], 0, none, [], str ("sid"), str ("general"), false⟩
          (str ("ab"))) (str ("cd"))).messages 0).map Message.text
      = some (str ("ab")) ∧
    (typeOutBotMessage
        (typeOutBotMessage ⟨[], 0, none, [], str ("sid"), str ("general"), false⟩
          (str ("ab"))) (str ("cd"))).session = some ⟨1, str ("cd"), 0⟩ := by
  have h := c5_single_flight
    (typeOutBotMessage ⟨[], 0, none, [], str ("sid"), str ("general"), false⟩
      (str ("ab")))
    ⟨0, str ("ab"), 0⟩ (str ("cd")) (by decide) (by decide) (by decide)
  exact ⟨h.1, h.2.1⟩

/-- **C6 (typewriter monotonicity).** Under an active well-formed session,
a tick reveals the length-`min(revealed+1, length)` prefix on the target
message, the revealed length grows by exactly one, the timer stops exactly
when the counter reaches the full length, and well-formedness is
preserved. -/
theorem c6_tick_reveals :
    ∀ (s : ChatState) (sess : TypingSession),
      WFb s = true → s.session = some sess →
      ∃ m1 m2 : Message,
        lookupMsg s.messages sess.msgId = some m1 ∧
        lookupMsg (tick s).messages sess.msgId = some m2 ∧
        m2.text = sess.fullText.take (min (sess.revealed + 1) sess.fullText.length) ∧
        m2.text.length = m1.text.length + 1 ∧
        ((tick s).session = none ↔ sess.revealed + 1 = sess.fullText.length) ∧
        WFb (tick s) = true := by
  intro s sess hwf hsess
  simp only [WFb, hsess, Bool.and_eq_true, decide_eq_true_eq] at hwf
  obtain ⟨⟨hnodup, hbound⟩, hlt, hlook⟩ := hwf
  obtain ⟨m, hm⟩ : ∃ m, lookupMsg s.messages sess.msgId = some m := by
    cases hl : lookupMsg s.messages sess.msgId with
    | none => rw [hl] at hlook; simp at hlook
    | some m => exact ⟨m, rfl⟩
  rw [hm] at hlook
  simp only [beq_iff_eq] at hlook
  have hmin : min (sess.revealed + 1) sess.fullText.length = sess.revealed + 1 := by
    omega
  have hup : lookupMsg (updateById s.messages sess.msgId
        (sess.fullText.take (sess.revealed + 1))) sess.msgId
      = some { m with text := sess.fullText.take (sess.revealed + 1) } :=
    lookupMsg_update_self _ hm
  have hids := updateById_map_id s.messages sess.msgId
    (sess.fullText.take (sess.revealed + 1))
  have hbound2 : (updateById s.messages sess.msgId
      (sess.fullText.take (sess.revealed + 1))).all
        (fun m2 => decide (m2.id < s.nextId)) = true := by
    rw [List.all_eq_true]
    intro m2 hm2
    have : m2.id ∈ (updateById s.messages sess.msgId
        (sess.fullText.take (sess.revealed + 1))).map Message.id :=
      List.mem_map_of_mem Message.id hm2
    rw [hids] at this
    obtain ⟨m3, hm3, hm3id⟩ := List.mem_map.mp this
    rw [List.all_eq_true] at hbound
    have := hbound m3 hm3
    simp only [decide_eq_true_eq] at this ⊢
    omega
  refine ⟨m, { m with text := sess.fullText.take (sess.revealed + 1) }, hm, ?_, ?_, ?_, ?_, ?_⟩
  · unfold tick
    rw [hsess]
    by_cases hstop : sess.fullText.length ≤ sess.revealed + 1
    · simpa [hstop] using hup
    · simpa [hstop] using hup
  · simp [hmin]
  · simp only [hlook]
    rw [List.length_take, List.length_take]
    omega
  · unfold tick
    rw [hsess]
    by_cases hstop : sess.fullText.length ≤ sess.revealed + 1
    · simp only [if_pos hstop]
      constructor
      · intro _; omega
      · intro _; trivial
    · simp only [if_neg hstop]
      constructor
      · intro h; simp at h
      · intro h; omega
  · unfold tick
    rw [hsess]
    by_cases hstop : sess.fullText.length ≤ sess.revealed + 1
    · simp only [if_pos hstop, WFb, Bool.and_eq_true]
      rw [hids]
      exact ⟨⟨hnodup, hbound2⟩, by trivial⟩
    · simp only [if_neg hstop, WFb, Bool.and_eq_true, decide_eq_true_eq]
      rw [hids]
      refine ⟨⟨hnodup, hbound2⟩, by omega, ?_⟩
      rw [hup]
      simp

/-- Witness for C6 at a concrete state: one tick of a fresh session. -/
theorem c6_tick_reveals_witness :
    ∃ m1 m2 : Message,
      lookupMsg (typeOutBotMessage
        ⟨[], 0, none, [], str ("sid"), str ("general"), false⟩
        (str ("ab"))).messages 0 = some m1 ∧
      lookupMsg (tick (typeOutBotMessage
        ⟨[], 0, none, [], str ("sid"), str ("general"), false⟩
        (str ("ab")))).messages 0 = some m2 ∧
      m2.text = (str ("ab")).take (min 1 (str ("ab")).length) ∧
      m2.text.length = m1.text.length + 1 ∧
      ((tick (typeOutBotMessage
        ⟨[], 0, none, [], str ("sid"), str ("general"), false⟩
        (str ("ab")))).session = none ↔ 0 + 1 = (str ("ab")).length) ∧
      WFb (tick (typeOutBotMessage
        ⟨[], 0, none, [], str ("sid"), str ("general"), false⟩
        (str ("ab")))) = true :=
  c6_tick_reveals
    (typeOutBotMessage ⟨[], 0, none, [], str ("sid"), str ("general"), false⟩
      (str ("ab")))
    ⟨0, str ("ab"), 0⟩ (by decide) (by decide)

/-! ## C8: default reply substitution and rejection handling -/

theorem finalizeTyping_nextId (s : ChatState) :
    (finalizeTyping s).nextId = s.nextId := by
  unfold finalizeTyping
  cases s.session <;> rfl

theorem finalizeTyping_sending (s : ChatState) :
    (finalizeTyping s).sending = s.sending := by
  unfold finalizeTyping
  cases s.session <;> rfl

/-- **C8.** A response body that is unparseable or carries no truthy
`output` (single object or first array element) makes both send flows
substitute the fixed default reply and type it out; a rejected request
clears the sending flag and appends the fixed apology bot message. -/
theorem c8_default_reply_and_apology :
    ∀ (s : ChatState) (data : Option ChatJson),
      (truthyOutput data = false →
        extractReply data = defaultReply ∧
        (sendMessageResolve s (.success data)).session
            = some ⟨s.nextId, defaultReply, 0⟩ ∧
        (sendQuickMessageResolve s (.success data)).session
            = some ⟨s.nextId, defaultReply, 0⟩) ∧
      ((sendMessageResolve s .reject).sending = false ∧
       (sendMessageResolve s .reject).messages
          = s.messages ++ [⟨s.nextId, Role.bot, apologyReply, []⟩] ∧
       (sendQuickMessageResolve s .reject).sending = false ∧
       (sendQuickMessageResolve s .reject).messages
          = s.messages ++ [⟨s.nextId, Role.bot, apologyReply, []⟩]) := by
  intro s data
  constructor
  · intro h
    have hrep : extractReply data = defaultReply := by
      cases data with
      | none => rfl
      | some j =>
        cases j with
        | obj o =>
          cases o with
          | none => rfl
          | some r =>
            simp only [truthyOutput, bne_eq_false_iff_eq] at h
            simp [extractReply, h]
        | arr es =>
          cases es with
          | nil => rfl
          | cons x rest =>
            cases hx : outputField x with
            | none => simp [extractReply, hx]
            | some r =>
              simp only [truthyOutput, hx, bne_eq_false_iff_eq] at h
              simp [extractReply, hx, h]
    have hsess : ∀ s2 : ChatState,
        (typeOutBotMessage s2 defaultReply).session = some ⟨s2.nextId, defaultReply, 0⟩ := by
      intro s2
      unfold typeOutBotMessage
      have htrim : trimWs defaultReply = defaultReply := by decide
      rw [htrim, if_neg (by decide)]
      simp [finalizeTyping_nextId]
    refine ⟨hrep, ?_, ?_⟩
    · show (typeOutBotMessage { s with sending := false } (extractReply data)).session = _
      rw [hrep]
      exact hsess { s with sending := false }
    · show (typeOutBotMessage { s with sending := false } (extractReply data)).session = _
      rw [hrep]
      exact hsess { s with sending := false }
  · exact ⟨rfl, rfl, rfl, rfl⟩

/-- Witness for C8: an array whose first element has an empty `output`. -/
theorem c8_default_reply_and_apology_witness :
    extractReply (some (.arr [.obj (some [])])) = defaultReply ∧
    (sendMessageResolve ⟨[], 3, none, [], str ("sid"), str ("general"), true⟩
        (.success (some (.arr [.obj (some [])])))).session
      = some ⟨3, defaultReply, 0⟩ :=
  ⟨((c8_default_reply_and_apology
      ⟨[], 3, none, [], str ("sid"), str ("general"), true⟩
      (some (.arr [.obj (some [])]))).1 (by decide)).1,
   ((c8_default_reply_and_apology
      ⟨[], 3, none, [], str ("sid"), str ("general"), true⟩
      (some (.arr [.obj (some [])]))).1 (by decide)).2.1⟩

/-! ## Structural facts about the matchers and the URL parser -/

theorem listStartsWith_iff : ∀ (p s : Str),
    listStartsWith p s = true ↔ s.take p.length = p := by
  intro p
  induction p with
  | nil => intro s; simp [listStartsWith]
  | cons x ps ih =>
    intro s
    cases s with
    | nil => simp [listStartsWith]
    | cons c cs =>
      simp only [listStartsWith, Bool.and_eq_true, beq_iff_eq, List.length_cons,
        List.take_succ_cons, List.cons.injEq, ih]
      tauto

theorem listEndsWith_iff (suf s : Str) :
    listEndsWith suf s = true ↔ ∃ pre, s = pre ++ suf := by
  unfold listEndsWith
  rw [listStartsWith_iff]
  constructor
  · intro h
    refine ⟨(s.reverse.drop suf.reverse.length).reverse, ?_⟩
    have hs : s.reverse = suf.reverse ++ s.reverse.drop suf.reverse.length := by
      conv_lhs => rw [← List.take_append_drop suf.reverse.length s.reverse, h]
    calc s = s.reverse.reverse := by rw [List.reverse_reverse]
    _ = (suf.reverse ++ s.reverse.drop suf.reverse.length).reverse := by rw [← hs]
    _ = (s.reverse.drop suf.reverse.length).reverse ++ suf := by
          rw [List.reverse_append, List.reverse_reverse]
  · rintro ⟨pre, rfl⟩
    rw [List.reverse_append]
    exact List.take_left _ _

theorem listEndsWith_refl (s : Str) : listEndsWith s s = true := by
  rw [listEndsWith_iff]
  exact ⟨[], rfl⟩

theorem listEndsWith_of_cons {x : Char} {suf s : Str}
    (h : listEndsWith (x :: suf) s = true) : listEndsWith suf s = true := by
  rw [listEndsWith_iff] at h ⊢
  obtain ⟨pre, rfl⟩ := h
  exact ⟨pre ++ [x], by simp⟩

theorem schemeLen_take {s : Str} {k : Nat} (h : schemeLen s = some k) :
    (k = 8 ∧ s.take 8 = str ("https://")) ∨ (k = 7 ∧ s.take 7 = str ("http://")) := by
  unfold schemeLen at h
  split at h
  · left
    simp only [Option.some.injEq] at h
    refine ⟨h.symm, ?_⟩
    have := (listStartsWith_iff (str ("https://")) s).mp (by assumption)
    simpa using this
  · split at h
    · right
      simp only [Option.some.injEq] at h
      refine ⟨h.symm, ?_⟩
      have := (listStartsWith_iff (str ("http://")) s).mp (by assumption)
      simpa using this
    · simp at h

theorem take_length_takeWhile (p : Char → Bool) (l : Str) :
    l.take (l.takeWhile p).length = l.takeWhile p := by
  nth_rewrite 2 [← List.takeWhile_append_dropWhile (p := p) (l := l)]
  exact List.take_left _ _

theorem all_takeWhile (p : Char → Bool) (l : Str) :
    (l.takeWhile p).all p = true := by
  rw [List.all_eq_true]
  intro c hc
  exact List.mem_takeWhile_imp hc

/-- The characters of a bare-URL match are non-whitespace. -/
theorem matchBare_take_nonws {s : Str} {n : Nat} (h : matchBare s = some n) :
    (s.take n).all (fun c => !(isWs c)) = true := by
  unfold matchBare at h
  cases hk : schemeLen s with
  | none => rw [hk] at h; simp at h
  | some k =>
    rw [hk] at h
    dsimp only at h
    split at h
    · simp at h
    · simp only [Option.some.injEq] at h
      subst h
      rw [List.take_add, List.all_append, Bool.and_eq_true]
      refine ⟨?_, ?_⟩
      · rcases schemeLen_take hk with ⟨hke, ht⟩ | ⟨hke, ht⟩ <;> subst hke <;> rw [ht] <;> decide
      · rw [take_length_takeWhile]
        exact all_takeWhile _ _

/-- The full shape of a successful complete-Markdown-link match. -/
theorem mdTryMatch_spec {s : Str} {m : MdMatch} (h : mdTryMatch s = some m) :
    ∃ (rest rest2 : Str) (k : Nat) (tail : Str),
      s = '[' :: rest ∧
      m.label = rest.takeWhile (fun c => c != ']') ∧
      m.label ≠ [] ∧
      rest.drop m.label.length = ']' :: '(' :: rest2 ∧
      schemeLen rest2 = some k ∧
      m.url = rest2.take k ++ (rest2.drop k).takeWhile (fun c => !(isWs c) && c != ')') ∧
      (rest2.drop k).takeWhile (fun c => !(isWs c) && c != ')') ≠ [] ∧
      (rest2.drop k).drop ((rest2.drop k).takeWhile (fun c => !(isWs c) && c != ')')).length
        = ')' :: tail ∧
      m.len = 1 + m.label.length + 2 + k +
        ((rest2.drop k).takeWhile (fun c => !(isWs c) && c != ')')).length + 1 := by
  obtain ⟨mlab, murl, mlen⟩ := m
  unfold mdTryMatch at h
  split at h
  case h_1 c rest =>
    dsimp only at h
    split at h
    · simp at h
    case isFalse hlab =>
      split at h
      case h_1 rest2 hdrop =>
        split at h
        case h_1 k hk =>
          split at h
          · simp at h
          case isFalse hrun =>
            split at h
            case h_1 tail hdrop2 =>
              simp only [Option.some.injEq, MdMatch.mk.injEq] at h
              obtain ⟨h1, h2, h3⟩ := h
              subst h1
              subst h2
              subst h3
              refine ⟨rest, rest2, k, tail, rfl, rfl, ?_, hdrop, hk, rfl, ?_, hdrop2, rfl⟩
              · intro hnil
                have h4 : List.takeWhile (fun c => c != ']') rest = [] := hnil
                rw [h4] at hlab
                simp at hlab
              · intro hnil
                have h4 : List.takeWhile (fun c => !(isWs c) && c != ')')
                    (List.drop k rest2) = [] := hnil
                rw [h4] at hrun
                simp at hrun
            · simp at h
        · simp at h
      · simp at h
  · simp at h

/-- The characters of a Markdown-link match URL are non-whitespace. -/
theorem mdTryMatch_url_nonws {s : Str} {m : MdMatch} (h : mdTryMatch s = some m) :
    m.url.all (fun c => !(isWs c)) = true := by
  obtain ⟨rest, rest2, k, tail, _, _, _, _, hk, hurl, _, _, _⟩ := mdTryMatch_spec h
  rw [hurl, List.all_append, Bool.and_eq_true]
  refine ⟨?_, ?_⟩
  · rcases schemeLen_take hk with ⟨hke, ht⟩ | ⟨hke, ht⟩ <;> subst hke <;> rw [ht] <;> decide
  · rw [List.all_eq_true]
    intro c hc
    have := List.mem_takeWhile_imp hc
    simp only [Bool.and_eq_true] at this
    exact this.1

theorem lowerChar_slash {c : Char} (h : lowerChar c = '/') : c = '/' := by
  unfold lowerChar at h
  split at h
  all_goals first
    | exact h
    | exact absurd h (by decide)

/-- The hostname produced by `parseUrl` contains no slash. -/
theorem parseUrl_host_no_slash {u : Str} {up : UrlParts}
    (h : parseUrl u = some up) : up.host.all (fun c => c != '/') = true := by
  unfold parseUrl at h
  split at h
  · simp at h
  case h_2 k hk =>
    dsimp only at h
    split at h
    · simp at h
    case isFalse hhost =>
      obtain ⟨uphost, uppath, upquery⟩ := up
      simp only [Option.some.injEq, UrlParts.mk.injEq] at h
      obtain ⟨h1, h2, h3⟩ := h
      rw [List.all_eq_true]
      intro c hc
      rw [← h1] at hc
      obtain ⟨c0, hc0, rfl⟩ := List.mem_map.mp hc
      have hc0' : c0 ∈ (u.drop k).takeWhile
          (fun c => c != '/' && c != '?' && c != '#') := by
        have step1 : c0 ∈ ((u.drop k).takeWhile
            (fun c => c != '/' && c != '?' && c != '#')).reverse.takeWhile
              (fun c => c != '@') := by
          have := mem_of_mem_takeWhile (p := fun c => c != ':') hc0
          exact (List.mem_reverse).mp this
        have := mem_of_mem_takeWhile step1
        exact (List.mem_reverse).mp this
      have hpred := List.mem_takeWhile_imp hc0'
      simp only [Bool.and_eq_true, bne_iff_ne, ne_eq] at hpred
      simp only [bne_iff_ne, ne_eq]
      intro hcontra
      exact hpred.1.1 (lowerChar_slash hcontra)

/-- The pathname produced by `parseUrl` starts with a slash. -/
theorem parseUrl_path_slash {u : Str} {up : UrlParts}
    (h : parseUrl u = some up) : ∃ t, up.path = '/' :: t := by
  unfold parseUrl at h
  split at h
  · simp at h
  case h_2 k hk =>
    dsimp only at h
    split at h
    · simp at h
    case isFalse hhost =>
      obtain ⟨uphost, uppath, upquery⟩ := up
      simp only [Option.some.injEq, UrlParts.mk.injEq] at h
      obtain ⟨h1, h2, h3⟩ := h
      by_cases hz : ((u.drop k).drop
          ((u.drop k).takeWhile (fun c => c != '/' && c != '?' && c != '#')).length).takeWhile
            (fun c => c != '?' && c != '#') = []
      · rw [← h2, hz]
        simp
      · rw [← h2]
        have hlen : (((u.drop k).drop
            ((u.drop k).takeWhile (fun c => c != '/' && c != '?' && c != '#')).length).takeWhile
              (fun c => c != '?' && c != '#')).length ≠ 0 := by
          simpa [List.length_eq_zero] using hz
        rw [if_neg (by simpa using hlen)]
        obtain ⟨d, t2, hdt⟩ : ∃ d t2, ((u.drop k).drop
            ((u.drop k).takeWhile (fun c => c != '/' && c != '?' && c != '#')).length).takeWhile
              (fun c => c != '?' && c != '#') = d :: t2 := by
          cases hx : ((u.drop k).drop
              ((u.drop k).takeWhile (fun c => c != '/' && c != '?' && c != '#')).length).takeWhile
                (fun c => c != '?' && c != '#') with
          | nil => exact absurd hx hz
          | cons d t2 => exact ⟨d, t2, rfl⟩
        have hafter : (u.drop k).drop
            ((u.drop k).takeWhile (fun c => c != '/' && c != '?' && c != '#')).length
              = (u.drop k).dropWhile (fun c => c != '/' && c != '?' && c != '#') :=
          drop_length_takeWhile _ _
        have hd : d = '/' := by
          have hcons : ∃ t3, (u.drop k).dropWhile
              (fun c => c != '/' && c != '?' && c != '#') = d :: t3 := by
            rw [← hafter]
            cases hy : (u.drop k).drop
                ((u.drop k).takeWhile (fun c => c != '/' && c != '?' && c != '#')).length with
            | nil => rw [hy] at hdt; simp at hdt
            | cons e t3 =>
              rw [hy] at hdt
              rw [List.takeWhile_cons] at hdt
              split at hdt
              · simp only [List.cons.injEq] at hdt
                exact ⟨t3, by rw [hdt.1]⟩
              · simp at hdt
          obtain ⟨t3, ht3⟩ := hcons
          have hfail := dropWhile_head_false ht3
          have hmem : d ∈ ((u.drop k).drop
              ((u.drop k).takeWhile (fun c => c != '/' && c != '?' && c != '#')).length).takeWhile
                (fun c => c != '?' && c != '#') := by
            rw [hdt]; simp
          have hp2 : (d != '?' && d != '#') = true :=
            List.mem_takeWhile_imp (p := fun c => c != '?' && c != '#') hmem
          simp only [Bool.and_eq_true, bne_iff_ne, ne_eq] at hp2
          simp only [Bool.and_eq_true, bne_iff_ne, ne_eq, Bool.not_eq_true] at hfail
          by_contra hne
          rcases Bool.and_eq_false_iff.mp hfail with hf | hf
          · rcases Bool.and_eq_false_iff.mp hf with hg | hg
            · simp only [bne_eq_false_iff_eq] at hg
              exact hne hg
            · simp only [bne_eq_false_iff_eq] at hg
              exact hp2.1 hg
          · simp only [bne_eq_false_iff_eq] at hf
            exact hp2.2 hf
        rw [hdt, hd]
        exact ⟨t2, rfl⟩

theorem takeWhile_slash_head (x : Str) :
    List.takeWhile (fun c => c != '/') ('/' :: x) = [] :=
  List.takeWhile_cons_of_neg (by simp)

/-- `stripWww` preserves slash-freeness. -/
theorem stripWww_no_slash {h : Str} (hh : h.all (fun c => c != '/') = true) :
    (stripWww h).all (fun c => c != '/') = true := by
  unfold stripWww
  split
  · rw [List.all_eq_true] at hh ⊢
    intro c hc
    exact hh c (mem_of_mem_drop hc)
  · exact hh

/-- The canonical host can be read back off the canonical key: it is the
segment before the first slash. -/
theorem normalizeKey_host_key {u : Str} {kh : KeyHost}
    (h : normalizeKey u = some kh) :
    kh.key.takeWhile (fun c => c != '/') = kh.host := by
  unfold normalizeKey at h
  split at h
  · simp at h
  case h_2 up hup =>
    dsimp only at h
    obtain ⟨khkey, khhost⟩ := kh
    simp only [Option.some.injEq, KeyHost.mk.injEq] at h
    obtain ⟨h1, h2⟩ := h
    obtain ⟨t, hpath⟩ := parseUrl_path_slash hup
    have hhost : (stripWww up.host).all (fun c => c != '/') = true :=
      stripWww_no_slash (parseUrl_host_no_slash hup)
    have hshape2 : ∃ t2, (if up.path.length > 1 && up.path.getLast? == some '/'
        then up.path.dropLast else up.path) = '/' :: t2 := by
      split
      case isTrue hcond =>
        rw [hpath]
        rcases t with _ | ⟨e, t3⟩
        · rw [hpath] at hcond
          simp at hcond
        · exact ⟨(e :: t3).dropLast, rfl⟩
      case isFalse => exact ⟨t, hpath⟩
    obtain ⟨t2, hshape2⟩ := hshape2
    simp only [← h1, ← h2]
    rw [List.append_assoc, hshape2, takeWhile_append_of_all _ hhost, List.cons_append,
      takeWhile_slash_head]
    simp

/-- Equal canonical keys have equal canonical hosts. -/
theorem normalizeKey_key_det_host {u1 u2 : Str} {kh1 kh2 : KeyHost}
    (h1 : normalizeKey u1 = some kh1) (h2 : normalizeKey u2 = some kh2)
    (hk : kh1.key = kh2.key) : kh1.host = kh2.host := by
  rw [← normalizeKey_host_key h1, ← normalizeKey_host_key h2, hk]

/-! ## The dedup loop of `extractLinks` -/

/-- The link pushed by the dedup loop for a candidate: the
punctuation-stripped URL with the candidate's label. -/
def cleanCand (c : Cand) : Link :=
  ⟨stripTrailingPunct c.url, c.label⟩

/-- Canonical key of an output link, recomputed from its stored URL. -/
def lkey (l : Link) : Option Str :=
  (normalizeKey l.url).map KeyHost.key

/-- Canonical key of a candidate, as the dedup loop computes it. -/
def candKeyStr (c : Cand) : Option Str :=
  (normalizeKey (stripTrailingPunct c.url)).map KeyHost.key

theorem dedupLoop_cons (it : Cand) (rest : List Cand) (seen : List Str) :
    dedupLoop (it :: rest) seen =
      match normalizeKey (stripTrailingPunct it.url) with
      | none => dedupLoop rest seen
      | some kh =>
        if kh.key.length == 0 || kh.host.length == 0 then dedupLoop rest seen
        else if !allowB kh.host then dedupLoop rest seen
        else if kh.key ∈ seen then dedupLoop rest seen
        else ⟨stripTrailingPunct it.url, it.label⟩ :: dedupLoop rest (kh.key :: seen) := rfl

/-- Every link output by the dedup loop parses, has a non-empty key and
host, an allow-listed host, and a key not yet seen. -/
theorem dedupLoop_allowed :
    ∀ (raw : List Cand) (seen : List Str) (l : Link), l ∈ dedupLoop raw seen →
      ∃ kh : KeyHost, normalizeKey l.url = some kh ∧ kh.key ≠ [] ∧ kh.host ≠ [] ∧
        allowB kh.host = true ∧ kh.key ∉ seen := by
  intro raw
  induction raw with
  | nil => intro seen l h; simp [dedupLoop] at h
  | cons it rest ih =>
    intro seen l h
    rw [dedupLoop_cons] at h
    cases hk : normalizeKey (stripTrailingPunct it.url) with
    | none =>
      rw [hk] at h
      exact ih seen l h
    | some kh =>
      rw [hk] at h
      dsimp only at h
      split at h
      · exact ih seen l h
      case isFalse hempty =>
        split at h
        · exact ih seen l h
        case isFalse hallow =>
          split at h
          · exact ih seen l h
          case isFalse hseen =>
            rcases List.mem_cons.mp h with rfl | h2
            · refine ⟨kh, hk, ?_, ?_, ?_, hseen⟩
              · intro hz
                rw [hz] at hempty
                simp at hempty
              · intro hz
                rw [hz] at hempty
                simp at hempty
              · simpa using hallow
            · obtain ⟨kh2, hk2, hne1, hne2, hal, hns⟩ := ih (kh.key :: seen) l h2
              exact ⟨kh2, hk2, hne1, hne2, hal,
                fun hmem => hns (List.mem_cons_of_mem _ hmem)⟩

/-- Every output link is the cleaned form of some candidate. -/
theorem dedupLoop_origin :
    ∀ (raw : List Cand) (seen : List Str) (l : Link), l ∈ dedupLoop raw seen →
      ∃ it ∈ raw, l = cleanCand it := by
  intro raw
  induction raw with
  | nil => intro seen l h; simp [dedupLoop] at h
  | cons it rest ih =>
    intro seen l h
    rw [dedupLoop_cons] at h
    cases hk : normalizeKey (stripTrailingPunct it.url) with
    | none =>
      rw [hk] at h
      obtain ⟨it2, hmem, heq⟩ := ih seen l h
      exact ⟨it2, List.mem_cons_of_mem _ hmem, heq⟩
    | some kh =>
      rw [hk] at h
      dsimp only at h
      split at h
      · obtain ⟨it2, hmem, heq⟩ := ih seen l h
        exact ⟨it2, List.mem_cons_of_mem _ hmem, heq⟩
      · split at h
        · obtain ⟨it2, hmem, heq⟩ := ih seen l h
          exact ⟨it2, List.mem_cons_of_mem _ hmem, heq⟩
        · split at h
          · obtain ⟨it2, hmem, heq⟩ := ih seen l h
            exact ⟨it2, List.mem_cons_of_mem _ hmem, heq⟩
          · rcases List.mem_cons.mp h with rfl | h2
            · exact ⟨it, List.mem_cons_self _ _, rfl⟩
            · obtain ⟨it2, hmem, heq⟩ := ih _ l h2
              exact ⟨it2, List.mem_cons_of_mem _ hmem, heq⟩

/-- The output of the dedup loop preserves candidate order. -/
theorem dedupLoop_sublist :
    ∀ (raw : List Cand) (seen : List Str),
      List.Sublist (dedupLoop raw seen) (raw.map cleanCand) := by
  intro raw
  induction raw with
  | nil => intro seen; simp [dedupLoop]
  | cons it rest ih =>
    intro seen
    rw [dedupLoop_cons]
    cases hk : normalizeKey (stripTrailingPunct it.url) with
    | none => exact (ih seen).trans (List.sublist_cons_self _ _)
    | some kh =>
      dsimp only
      split
      · exact (ih seen).trans (List.sublist_cons_self _ _)
      · split
        · exact (ih seen).trans (List.sublist_cons_self _ _)
        · split
          · exact (ih seen).trans (List.sublist_cons_self _ _)
          · exact List.Sublist.cons₂ _ (ih _)

/-- The canonical keys of the output links are pairwise distinct. -/
theorem dedupLoop_keys_nodup :
    ∀ (raw : List Cand) (seen : List Str),
      ((dedupLoop raw seen).map lkey).Nodup := by
  intro raw
  induction raw with
  | nil => intro seen; simp [dedupLoop]
  | cons it rest ih =>
    intro seen
    rw [dedupLoop_cons]
    cases hk : normalizeKey (stripTrailingPunct it.url) with
    | none => exact ih seen
    | some kh =>
      dsimp only
      split
      · exact ih seen
      · split
        · exact ih seen
        · split
          · exact ih seen
          · rw [List.map_cons, List.nodup_cons]
            refine ⟨?_, ih _⟩
            intro hmem
            obtain ⟨l2, hl2, hl2k⟩ := List.mem_map.mp hmem
            obtain ⟨kh2, hk2, _, _, _, hns⟩ := dedupLoop_allowed _ _ _ hl2
            have hkey1 : lkey (⟨stripTrailingPunct it.url, it.label⟩ : Link) = some kh.key := by
              unfold lkey
              show (normalizeKey (stripTrailingPunct it.url)).map KeyHost.key = _
              rw [hk]
              rfl
            rw [hkey1] at hl2k
            unfold lkey at hl2k
            rw [hk2] at hl2k
            simp only [Option.map_some', Option.some.injEq] at hl2k
            exact hns (by rw [hl2k]; exact List.mem_cons_self _ _)

/-- First-wins: every output link is the cleaned form of the first
candidate carrying its canonical key. -/
theorem dedupLoop_first_wins :
    ∀ (raw : List Cand) (seen : List Str) (l : Link), l ∈ dedupLoop raw seen →
      ∀ k : Str, lkey l = some k →
        ∃ it : Cand, raw.find? (fun c => candKeyStr c == some k) = some it ∧
          l = cleanCand it := by
  intro raw
  induction raw with
  | nil => intro seen l h; simp [dedupLoop] at h
  | cons it rest ih =>
    intro seen l h k hlk
    have hlkh : ∃ khl : KeyHost, normalizeKey l.url = some khl ∧ khl.key = k := by
      unfold lkey at hlk
      cases hx : normalizeKey l.url with
      | none => rw [hx] at hlk; simp at hlk
      | some khl =>
        rw [hx] at hlk
        simp only [Option.map_some', Option.some.injEq] at hlk
        exact ⟨khl, rfl, hlk⟩
    obtain ⟨khl, hkhl, hkhlk⟩ := hlkh
    rw [dedupLoop_cons] at h
    cases hk : normalizeKey (stripTrailingPunct it.url) with
    | none =>
      rw [hk] at h
      obtain ⟨it2, hfind, heq⟩ := ih seen l h k hlk
      refine ⟨it2, ?_, heq⟩
      rw [List.find?_cons_of_neg, hfind]
      simp [candKeyStr, hk]
    | some kh =>
      rw [hk] at h
      dsimp only at h
      have hckey : candKeyStr it = some kh.key := by
        unfold candKeyStr
        rw [hk]
        rfl
      -- whether the head candidate's key equals k decides the find? step
      by_cases hkk : kh.key = k
      · -- the head candidate carries key k
        by_cases hempty : (kh.key.length == 0 || kh.host.length == 0) = true
        · -- head skipped for an empty key or host; but l has key k with
          -- non-empty key and host, and equal keys force equal hosts
          rw [if_pos hempty] at h
          exfalso
          obtain ⟨khw, hkw, hne1, hne2, _, _⟩ :=
            dedupLoop_allowed _ _ _ h
          have : khw = khl := by
            rw [hkw] at hkhl
            simpa using hkhl
          subst this
          have hhost : kh.host = khw.host :=
            normalizeKey_key_det_host hk hkw (by rw [hkhlk, hkk])
          simp only [Bool.or_eq_true, beq_iff_eq, List.length_eq_zero] at hempty
          rcases hempty with hz | hz
          · rw [hz] at hkk
            rw [← hkk] at hkhlk
            exact hne1 (by rw [hkhlk])
          · rw [hz] at hhost
            exact hne2 hhost.symm
        · rw [if_neg hempty] at h
          by_cases hallow : (!allowB kh.host) = true
          · rw [if_pos hallow] at h
            exfalso
            obtain ⟨khw, hkw, _, _, hal, _⟩ := dedupLoop_allowed _ _ _ h
            have : khw = khl := by
              rw [hkw] at hkhl
              simpa using hkhl
            subst this
            have hhost : kh.host = khw.host :=
              normalizeKey_key_det_host hk hkw (by rw [hkhlk, hkk])
            rw [← hhost] at hal
            simp only [Bool.not_eq_true'] at hallow
            rw [hallow] at hal
            simp at hal
          · rw [if_neg hallow] at h
            by_cases hseen : kh.key ∈ seen
            · rw [if_pos hseen] at h
              exfalso
              obtain ⟨khw, hkw, _, _, _, hns⟩ := dedupLoop_allowed _ _ _ h
              have : khw = khl := by
                rw [hkw] at hkhl
                simpa using hkhl
              subst this
              rw [hkhlk, ← hkk] at hns
              exact hns hseen
            · rw [if_neg hseen] at h
              rcases List.mem_cons.mp h with rfl | h2
              · refine ⟨it, ?_, rfl⟩
                rw [List.find?_cons_of_pos]
                simp [hckey, hkk]
              · exfalso
                obtain ⟨khw, hkw, _, _, _, hns⟩ := dedupLoop_allowed _ _ _ h2
                have : khw = khl := by
                  rw [hkw] at hkhl
                  simpa using hkhl
                subst this
                rw [hkhlk, ← hkk] at hns
                exact hns (List.mem_cons_self _ _)
      · -- the head candidate carries a different key: find? skips it
        have hskip : (∃ it2, rest.find? (fun c => candKeyStr c == some k) = some it2 ∧
              l = cleanCand it2) →
            ∃ it2, (it :: rest).find? (fun c => candKeyStr c == some k) = some it2 ∧
              l = cleanCand it2 := by
          intro hex
          obtain ⟨it2, hfind, heq⟩ := hex
          refine ⟨it2, ?_, heq⟩
          rw [List.find?_cons_of_neg, hfind]
          simp [hckey, hkk]
        by_cases hempty : (kh.key.length == 0 || kh.host.length == 0) = true
        · rw [if_pos hempty] at h
          exact hskip (ih seen l h k hlk)
        · rw [if_neg hempty] at h
          by_cases hallow : (!allowB kh.host) = true
          · rw [if_pos hallow] at h
            exact hskip (ih seen l h k hlk)
          · rw [if_neg hallow] at h
            by_cases hseen : kh.key ∈ seen
            · rw [if_pos hseen] at h
              exact hskip (ih seen l h k hlk)
            · rw [if_neg hseen] at h
              rcases List.mem_cons.mp h with rfl | h2
              · exfalso
                apply hkk
                have : normalizeKey (stripTrailingPunct it.url) = some khl := hkhl
                rw [hk] at this
                simp only [Option.some.injEq] at this
                rw [this, hkhlk]
              · exact hskip (ih _ l h2 k hlk)

/-! ## C1, C2, C9: claims about `extractLinks` -/

theorem strongRecStr {P : Str → Prop}
    (step : ∀ s : Str, (∀ s2 : Str, s2.length < s.length → P s2) → P s) :
    ∀ s, P s := by
  have key : ∀ (n : Nat) (s : Str), s.length ≤ n → P s := by
    intro n
    induction n with
    | zero =>
      intro s hs
      exact step s (by intro s2 h2; omega)
    | succ n ih =>
      intro s hs
      exact step s (fun s2 h2 => ih s2 (by omega))
  exact fun s => key s.length s (le_refl _)

/-- Every bare-scan candidate is a take of a regex match. -/
theorem scanBare_spec :
    ∀ (s : Str) (c : Cand), c ∈ scanBare s →
      ∃ (s2 : Str) (n : Nat), matchBare s2 = some n ∧ c = ⟨s2.take n, s2.take n⟩ := by
  refine strongRecStr ?_
  intro s ih c hc
  cases s with
  | nil => simp [scanBare, scanBareAux] at hc
  | cons x rest =>
    rw [scanBare_cons] at hc
    cases hm : matchBare (x :: rest) with
    | some n =>
      rw [hm] at hc
      rcases List.mem_cons.mp hc with rfl | h2
      · exact ⟨x :: rest, n, hm, rfl⟩
      · have hlt : ((x :: rest).drop n).length < (x :: rest).length := by
          have := matchBare_pos hm
          simp only [List.length_drop, List.length_cons]
          omega
        exact ih _ hlt c h2
    | none =>
      rw [hm] at hc
      exact ih rest (by simp) c hc

/-- Every Markdown-scan candidate comes from a regex match, with the label
trimmed. -/
theorem scanMd_spec :
    ∀ (s : Str) (c : Cand), c ∈ scanMd s →
      ∃ (s2 : Str) (m : MdMatch), mdTryMatch s2 = some m ∧ c = ⟨m.url, trimWs m.label⟩ := by
  refine strongRecStr ?_
  intro s ih c hc
  cases s with
  | nil => simp [scanMd, scanMdAux] at hc
  | cons x rest =>
    rw [scanMd_cons] at hc
    cases hm : mdTryMatch (x :: rest) with
    | some m =>
      rw [hm] at hc
      rcases List.mem_cons.mp hc with rfl | h2
      · exact ⟨x :: rest, m, hm, rfl⟩
      · have hlt : ((x :: rest).drop m.len).length < (x :: rest).length := by
          have := mdTryMatch_pos hm
          simp only [List.length_drop, List.length_cons]
          omega
        exact ih _ hlt c h2
    | none =>
      rw [hm] at hc
      exact ih rest (by simp) c hc

/-- Candidate URLs never contain whitespace (both regexes exclude it). -/
theorem cand_url_nonws :
    ∀ (t : Str) (c : Cand), c ∈ candidateList t →
      c.url.all (fun ch => !(isWs ch)) = true := by
  intro t c hc
  unfold candidateList at hc
  have hbare : ∀ c2 : Cand, c2 ∈ scanBare t →
      c2.url.all (fun ch => !(isWs ch)) = true := by
    intro c2 h2
    obtain ⟨s2, n, hm, rfl⟩ := scanBare_spec t c2 h2
    exact matchBare_take_nonws hm
  have hmd : ∀ c2 : Cand, c2 ∈ scanMd t →
      c2.url.all (fun ch => !(isWs ch)) = true := by
    intro c2 h2
    obtain ⟨s2, m, hm, rfl⟩ := scanMd_spec t c2 h2
    exact mdTryMatch_url_nonws hm
  dsimp only at hc
  split at hc
  · rcases List.mem_append.mp hc with h | h
    · exact hmd c h
    · exact hbare c (List.mem_of_mem_filter h)
  · exact hbare c hc

/-- On a whitespace-free URL, `stripTrailingPunct` removes exactly a
maximal trailing punctuation run. -/
theorem stripTrailingPunct_decomp {u : Str}
    (h : u.all (fun c => !(isWs c)) = true) :
    ∃ suffix : Str, u = stripTrailingPunct u ++ suffix ∧
      suffix.all isLinkPunct = true := by
  have htrim : trimWs u = u := by
    unfold trimWs
    rw [dropWhile_eq_self_of_all_neg h]
    rw [dropWhile_eq_self_of_all_neg (by simpa [List.all_reverse] using h)]
    simp
  refine ⟨(u.reverse.takeWhile isLinkPunct).reverse, ?_, ?_⟩
  · unfold stripTrailingPunct dropTrailing
    rw [htrim]
    calc u = u.reverse.reverse := (List.reverse_reverse u).symm
    _ = (u.reverse.takeWhile isLinkPunct ++ u.reverse.dropWhile isLinkPunct).reverse := by
          rw [List.takeWhile_append_dropWhile]
    _ = (u.reverse.dropWhile isLinkPunct).reverse ++
          (u.reverse.takeWhile isLinkPunct).reverse := by
          rw [List.reverse_append]
  · rw [List.all_reverse]
    exact all_takeWhile _ _

/-- **C2.** Every link output by `extractLinks` has a canonical host that
equals or ends with the apex domain `spanmor.com.au`, and every candidate
whose canonical host does not is dropped. -/
theorem c2_allowlist :
    ∀ t : Str,
      (∀ l ∈ extractLinks t, ∃ kh : KeyHost, normalizeKey l.url = some kh ∧
        (kh.host = apexDomain ∨ listEndsWith apexDomain kh.host = true)) ∧
      (∀ c ∈ candidateList t, ∀ kh : KeyHost,
        normalizeKey (stripTrailingPunct c.url) = some kh →
        ¬(kh.host = apexDomain ∨ listEndsWith apexDomain kh.host = true) →
        ∀ l ∈ extractLinks t, l.url ≠ stripTrailingPunct c.url) := by
  intro t
  have hconv : ∀ host : Str, allowB host = true →
      host = apexDomain ∨ listEndsWith apexDomain host = true := by
    intro host hal
    unfold allowB at hal
    rw [Bool.or_eq_true] at hal
    rcases hal with h | h
    · exact Or.inl (by simpa using h)
    · exact Or.inr (listEndsWith_of_cons h)
  constructor
  · intro l hl
    obtain ⟨kh, hkh, _, _, hal, _⟩ := dedupLoop_allowed _ _ _ hl
    exact ⟨kh, hkh, hconv kh.host hal⟩
  · intro c hc kh hkh hnot l hl heq
    obtain ⟨kh2, hkh2, _, _, hal, _⟩ := dedupLoop_allowed _ _ _ hl
    rw [heq, hkh] at hkh2
    simp only [Option.some.injEq] at hkh2
    rw [hkh2] at hnot
    exact hnot (hconv kh2.host hal)

/-- Witness for C2: a `www.` link is kept, with canonical host equal to
the apex domain. -/
theorem c2_allowlist_witness :
    ∃ kh : KeyHost,
      normalizeKey (Link.url ⟨str ("https://www.spanmor.com.au/x"), str ("A")⟩) = some kh ∧
      (kh.host = apexDomain ∨ listEndsWith apexDomain kh.host = true) :=
  (c2_allowlist (str ("[A](https://www.spanmor.com.au/x)"))).1
    ⟨str ("https://www.spanmor.com.au/x"), str ("A")⟩ (by decide)

/-- **C9 (implicit).** Each extracted link's `url` is the originally
matched candidate URL with only a trailing punctuation run removed (and
the label passed through): case, `www.`, tracking parameters and trailing
slashes survive in the stored `url`; canonicalization is used only for the
key and the allow-list check. -/
theorem c9_url_only_trailing_punct_stripped :
    ∀ t : Str, ∀ l ∈ extractLinks t, ∃ c ∈ candidateList t,
      l.url = stripTrailingPunct c.url ∧ l.label = c.label ∧
      ∃ suffix : Str, c.url = l.url ++ suffix ∧ suffix.all isLinkPunct = true := by
  intro t l hl
  obtain ⟨it, hmem, heq⟩ := dedupLoop_origin _ _ _ hl
  have hurl : l.url = stripTrailingPunct it.url := by rw [heq]; rfl
  have hlab : l.label = it.label := by rw [heq]; rfl
  obtain ⟨suffix, hsplit, hall⟩ :=
    stripTrailingPunct_decomp (cand_url_nonws t it hmem)
  exact ⟨it, hmem, hurl, hlab, suffix, by rw [hurl]; exact hsplit, hall⟩

/-- Witness for C9: a bare URL with a trailing period; the stored url
drops only the period, the label keeps it. -/
theorem c9_url_only_trailing_punct_stripped_witness :
    ∃ c ∈ candidateList (str ("Go to https://spanmor.com.au/a/b.")),
      Link.url ⟨str ("https://spanmor.com.au/a/b"), str ("https://spanmor.com.au/a/b.")⟩
          = stripTrailingPunct c.url ∧
      Link.label ⟨str ("https://spanmor.com.au/a/b"), str ("https://spanmor.com.au/a/b.")⟩
          = c.label ∧
      ∃ suffix : Str, c.url =
          Link.url ⟨str ("https://spanmor.com.au/a/b"), str ("https://spanmor.com.au/a/b.")⟩
            ++ suffix ∧ suffix.all isLinkPunct = true :=
  c9_url_only_trailing_punct_stripped (str ("Go to https://spanmor.com.au/a/b."))
    ⟨str ("https://spanmor.com.au/a/b"), str ("https://spanmor.com.au/a/b.")⟩
    (by decide)

/-- **C1 (amended).** `extractLinks` output has pairwise-distinct
canonical keys, preserves the order of the candidate list (Markdown links
first, then qualifying bare URLs), and each output link is the cleaned
first candidate carrying its canonical key. -/
theorem c1_dedup_first_wins_candidate_order :
    ∀ t : Str,
      ((extractLinks t).map lkey).Nodup ∧
      List.Sublist (extractLinks t) ((candidateList t).map cleanCand) ∧
      (∀ l ∈ extractLinks t, ∀ k : Str, lkey l = some k →
        ∃ it : Cand, (candidateList t).find? (fun c => candKeyStr c == some k) = some it ∧
          l = cleanCand it) := by
  intro t
  exact ⟨dedupLoop_keys_nodup _ _, dedupLoop_sublist _ _,
    fun l hl k hk => dedupLoop_first_wins _ _ l hl k hk⟩

/-- Witness for C1 at a concrete two-link text. -/
theorem c1_dedup_first_wins_candidate_order_witness :
    ∃ it : Cand,
      (candidateList (str ("[A](https://spanmor.com.au/x) and [B](https://spanmor.com.au/y)"))).find?
          (fun c => candKeyStr c == some (str ("spanmor.com.au/x"))) = some it ∧
      (⟨str ("https://spanmor.com.au/x"), str ("A")⟩ : Link) = cleanCand it :=
  (c1_dedup_first_wins_candidate_order
      (str ("[A](https://spanmor.com.au/x) and [B](https://spanmor.com.au/y)"))).2.2
    ⟨str ("https://spanmor.com.au/x"), str ("A")⟩ (by decide)
    (str ("spanmor.com.au/x")) (by decide)

/-- Index of the first occurrence of `pat` in a text (the text's length
when absent). -/
def firstIdx (pat : Str) : Str → Nat
  | [] => 0
  | c :: r => if listStartsWith pat (c :: r) then 0 else 1 + firstIdx pat r

/-- **C1, counterexample to the claim as stated.** With a qualifying bare
URL appearing in the text before a Markdown link, the output lists the
Markdown link first: output order is candidate order (Markdown links
first), not order of first appearance in the input text. -/
theorem c1_counterexample :
    (extractLinks (str ("See https://spanmor.com.au/a/b then [X](https://spanmor.com.au/c)"))).map Link.url
        = [str ("https://spanmor.com.au/c"), str ("https://spanmor.com.au/a/b")] ∧
    firstIdx (str ("https://spanmor.com.au/a/b"))
        (str ("See https://spanmor.com.au/a/b then [X](https://spanmor.com.au/c)"))
      < firstIdx (str ("https://spanmor.com.au/c"))
        (str ("See https://spanmor.com.au/a/b then [X](https://spanmor.com.au/c)")) := by
  exact ⟨by decide, by decide⟩

/-! ## C3: no URL fragment survives bare-URL removal -/

/-- Is there a scheme marker followed by a non-whitespace character at the
head of `s`?  This is exactly where the bare-URL regex can match. -/
def badAt (s : Str) : Bool :=
  match schemeLen s with
  | some k =>
    match s.drop k with
    | [] => false
    | d :: _ => !(isWs d)
  | none => false

/-- Does `s` contain, at any position, a scheme marker followed by a
non-whitespace character (i.e. a complete raw URL occurrence)? -/
def containsBad : Str → Bool
  | [] => false
  | c :: r => badAt (c :: r) || containsBad r

theorem rb_nil : rb [] = [] := rfl

theorem schemeLen_ws_head {d : Char} (t : Str) (hd : isWs d = true) :
    schemeLen (d :: t) = none := by
  have hne : ('h' == d) = false := by
    cases hh : 'h' == d
    · rfl
    · exfalso
      have hdh : d = 'h' := (eq_of_beq hh).symm
      rw [hdh] at hd
      simp [isWs] at hd
  unfold schemeLen
  have h1 : listStartsWith (str ("https://")) (d :: t) = false := by
    show (('h' == d) && listStartsWith (str ("ttps://")) t) = false
    rw [hne]
    rfl
  have h2 : listStartsWith (str ("http://")) (d :: t) = false := by
    show (('h' == d) && listStartsWith (str ("ttp://")) t) = false
    rw [hne]
    rfl
  rw [h1, h2]
  rfl

theorem matchBare_ws_head {d : Char} (t : Str) (hd : isWs d = true) :
    matchBare (d :: t) = none := by
  unfold matchBare
  rw [schemeLen_ws_head t hd]

theorem matchBare_of_badAt {s : Str} (h : badAt s = true) :
    ∃ n, matchBare s = some n := by
  unfold badAt at h
  cases hk : schemeLen s with
  | none => rw [hk] at h; simp at h
  | some k =>
    rw [hk] at h
    dsimp only at h
    cases hd : s.drop k with
    | nil => rw [hd] at h; simp at h
    | cons d t2 =>
      rw [hd] at h
      dsimp only at h
      have hrun : (s.drop k).takeWhile (fun c => !(isWs c))
          = d :: t2.takeWhile (fun c => !(isWs c)) := by
        rw [hd, List.takeWhile_cons_of_pos (by simpa using h)]
      refine ⟨k + ((s.drop k).takeWhile (fun c => !(isWs c))).length, ?_⟩
      unfold matchBare
      rw [hk]
      dsimp only
      rw [hrun]
      simp

theorem badAt_of_matchBare {s : Str} {n : Nat} (h : matchBare s = some n) :
    badAt s = true := by
  unfold matchBare at h
  cases hk : schemeLen s with
  | none => rw [hk] at h; simp at h
  | some k =>
    rw [hk] at h
    dsimp only at h
    split at h
    · simp at h
    case isFalse hrun =>
      unfold badAt
      rw [hk]
      dsimp only
      cases hd : s.drop k with
      | nil =>
        rw [hd] at hrun
        simp at hrun
      | cons d t2 =>
        dsimp only
        rw [hd] at hrun
        by_cases hp : (!(isWs d)) = true
        · exact hp
        · rw [List.takeWhile_cons_of_neg (by simpa using hp)] at hrun
          simp at hrun

theorem matchBare_drop {s : Str} {n : Nat} (h : matchBare s = some n) :
    s.drop n = [] ∨ ∃ d t2, s.drop n = d :: t2 ∧ isWs d = true := by
  unfold matchBare at h
  cases hk : schemeLen s with
  | none => rw [hk] at h; simp at h
  | some k =>
    rw [hk] at h
    dsimp only at h
    split at h
    · simp at h
    · simp only [Option.some.injEq] at h
      subst h
      rw [← List.drop_drop, drop_length_takeWhile]
      cases hd : (s.drop k).dropWhile (fun c => !(isWs c)) with
      | nil => exact Or.inl rfl
      | cons d t2 =>
        refine Or.inr ⟨d, t2, rfl, ?_⟩
        have := dropWhile_head_false hd
        simpa using this

/-- Agreement lemma: an all-non-whitespace prefix of `rb s` is a prefix of
`s` itself (removed regions are always followed by whitespace or the end,
so they cannot hide inside such a prefix). -/
theorem rb_take_eq :
    ∀ (s : Str) (j : Nat), j ≤ (rb s).length →
      ((rb s).take j).all (fun c => !(isWs c)) = true → (rb s).take j = s.take j := by
  refine strongRecStr ?_
  intro s ih j hlen hall
  cases s with
  | nil => simp [rb_nil] at hlen ⊢
  | cons c rest =>
    cases hm : matchBare (c :: rest) with
    | some n =>
      have hrbs : rb (c :: rest) = rb ((c :: rest).drop n) := by
        rw [rb_cons, hm]
      rw [hrbs] at hlen hall ⊢
      rcases matchBare_drop hm with hdrop | ⟨d, t2, hdrop, hwd⟩
      · rw [hdrop, rb_nil] at hlen hall ⊢
        simp only [List.length_nil, Nat.le_zero] at hlen
        subst hlen
        simp
      · rw [hdrop] at hlen hall ⊢
        have hrb2 : rb (d :: t2) = d :: rb t2 := by
          rw [rb_cons, matchBare_ws_head t2 hwd]
        rw [hrb2] at hlen hall ⊢
        cases j with
        | zero => simp
        | succ j2 =>
          exfalso
          simp only [List.take_succ_cons, List.all_cons, Bool.and_eq_true] at hall
          rw [hwd] at hall
          simp at hall
    | none =>
      have hrbs : rb (c :: rest) = c :: rb rest := by
        rw [rb_cons, hm]
      rw [hrbs] at hlen hall ⊢
      cases j with
      | zero => simp
      | succ j2 =>
        simp only [List.take_succ_cons, List.all_cons, Bool.and_eq_true,
          List.length_cons] at hlen hall ⊢
        rw [ih rest (by simp) j2 (by omega) hall.2]

/-- Key safety property of sanitiser rule 2: after bare-URL removal no
scheme marker followed by a non-whitespace character remains anywhere. -/
theorem containsBad_rb : ∀ s : Str, containsBad (rb s) = false := by
  refine strongRecStr ?_
  intro s ih
  cases s with
  | nil => rw [rb_nil]; rfl
  | cons c rest =>
    rw [rb_cons]
    cases hm : matchBare (c :: rest) with
    | some n =>
      dsimp only
      rcases matchBare_drop hm with hdrop | ⟨d, t2, hdrop, hwd⟩
      · rw [hdrop, rb_nil]
        rfl
      · rw [hdrop, rb_cons, matchBare_ws_head t2 hwd]
        have hn := matchBare_pos hm
        have ht2 : t2.length < (c :: rest).length := by
          have : ((c :: rest).drop n).length = (c :: rest).length - n := List.length_drop _ _
          rw [hdrop] at this
          simp only [List.length_cons] at this ⊢
          omega
        unfold containsBad
        rw [Bool.or_eq_false_iff]
        refine ⟨?_, ih t2 ht2⟩
        unfold badAt
        rw [schemeLen_ws_head _ hwd]
    | none =>
      dsimp only
      unfold containsBad
      rw [Bool.or_eq_false_iff]
      refine ⟨?_, ih rest (by simp)⟩
      -- a surviving occurrence at the head would force a match on `s`
      by_contra hbad
      rw [Bool.not_eq_false] at hbad
      unfold badAt at hbad
      cases hk : schemeLen (c :: rb rest) with
      | none => rw [hk] at hbad; simp at hbad
      | some k =>
        rw [hk] at hbad
        dsimp only at hbad
        cases hd : (c :: rb rest).drop k with
        | nil => rw [hd] at hbad; simp at hbad
        | cons d t2 =>
          rw [hd] at hbad
          dsimp only at hbad
          -- the first k+1 characters of  c :: rb rest  are non-whitespace
          have htake : (c :: rb rest).take (k + 1)
              = (c :: rb rest).take k ++ [d] := by
            rw [List.take_add]
            rw [hd]
            rfl
          have hallpre : ((c :: rb rest).take (k + 1)).all
              (fun ch => !(isWs ch)) = true := by
            rw [htake, List.all_append, Bool.and_eq_true]
            constructor
            · rcases schemeLen_take hk with ⟨hke, hp⟩ | ⟨hke, hp⟩ <;>
                subst hke <;> rw [hp] <;> decide
            · simpa using hbad
          have hklen : k + 1 ≤ (c :: rb rest).length := by
            have : ((c :: rb rest).drop k).length = (c :: rb rest).length - k :=
              List.length_drop _ _
            rw [hd] at this
            simp only [List.length_cons] at this ⊢
            omega
          -- rb (c :: rest) = c :: rb rest in this branch
          have hrbs : rb (c :: rest) = c :: rb rest := by
            rw [rb_cons, hm]
          have hagree : (c :: rb rest).take (k + 1) = (c :: rest).take (k + 1) := by
            rw [← hrbs] at htake hallpre hklen ⊢
            exact rb_take_eq (c :: rest) (k + 1) hklen hallpre
          -- transfer the scheme marker and the following character to `s`
          have hschemes : schemeLen (c :: rest) = some k := by
            rcases schemeLen_take hk with ⟨hke, hp⟩ | ⟨hke, hp⟩
            · subst hke
              have h8 : (c :: rest).take 8 = str ("https://") := by
                have e1 : (c :: rest).take 8 = ((c :: rest).take (8 + 1)).take 8 := by
                  rw [List.take_take, min_eq_left (by omega)]
                rw [e1, ← hagree, List.take_take, min_eq_left (by omega)]
                exact hp
              unfold schemeLen
              rw [if_pos ((listStartsWith_iff _ _).mpr (by simpa using h8))]
            · subst hke
              have h7 : (c :: rest).take 7 = str ("http://") := by
                have e1 : (c :: rest).take 7 = ((c :: rest).take (7 + 1)).take 7 := by
                  rw [List.take_take, min_eq_left (by omega)]
                rw [e1, ← hagree, List.take_take, min_eq_left (by omega)]
                exact hp
              have hnot8 : listStartsWith (str ("https://")) (c :: rest) = false := by
                by_contra hcon
                rw [Bool.not_eq_false] at hcon
                have h8a : (c :: rest).take 8 = str ("https://") := by
                  have := (listStartsWith_iff _ _).mp hcon
                  simpa using this
                have e2 : (c :: rest).take 7 = ((c :: rest).take 8).take 7 := by
                  rw [List.take_take, min_eq_left (by omega)]
                rw [h8a, h7] at e2
                exact absurd e2 (by decide)
              unfold schemeLen
              rw [hnot8]
              simp only [Bool.false_eq_true, if_false]
              rw [if_pos ((listStartsWith_iff _ _).mpr (by simpa using h7))]
        -- with a scheme at the head of (c :: rest) and a non-whitespace
        -- character after it, the bare regex matches: contradiction
          have hslen : k + 1 ≤ (c :: rest).length := by
            have hlg := congrArg List.length hagree
            rw [List.length_take, List.length_take] at hlg
            rcases Nat.le_total (k + 1) (c :: rest).length with hc | hc
            · exact hc
            · rw [min_eq_left hklen, min_eq_right hc] at hlg
              omega
          have heq2 : (c :: rest).take k ++ ((c :: rest).drop k).take 1
              = (c :: rb rest).take k ++ [d] := by
            rw [← List.take_add, ← hagree, htake]
          have hlens : ((c :: rest).take k).length = ((c :: rb rest).take k).length := by
            rw [List.length_take, List.length_take]
            have h1 : k ≤ (c :: rest).length := by omega
            have h2 : k ≤ (c :: rb rest).length := by omega
            rw [min_eq_left h1, min_eq_left h2]
          have hdd := (List.append_inj heq2 hlens).2
          have hbadS : badAt (c :: rest) = true := by
            unfold badAt
            rw [hschemes]
            dsimp only
            cases hcc : (c :: rest).drop k with
            | nil =>
              rw [hcc] at hdd
              simp at hdd
            | cons e t3 =>
              rw [hcc] at hdd
              simp only [List.take_succ_cons, List.take_zero, List.cons.injEq] at hdd
              rw [hdd.1]
              simpa using hbad
          obtain ⟨n2, hn2⟩ := matchBare_of_badAt hbadS
          rw [hm] at hn2
          exact absurd hn2 (by simp)

/-- Does `pat` occur as a contiguous substring of `s`? -/
def containsSeq (pat : Str) : Str → Bool
  | [] => pat.length == 0
  | c :: r => listStartsWith pat (c :: r) || containsSeq pat r

/-- **C3 (amended).** After sanitiser rules 1 and 2 (complete Markdown
links replaced by labels, bare URLs removed), the intermediate line
contains no complete raw URL: no occurrence of `http://` or `https://`
followed by a non-whitespace character survives.  (Rule 3 can re-expose
such an occurrence by gluing text around a collapsed fragment, and bare
scheme prefixes such as `https:` are never removed; see the
counterexample.) -/
theorem c3_no_url_after_rules_one_two :
    ∀ line : Str, containsBad (rb (mdReplace line)) = false :=
  fun line => containsBad_rb (mdReplace line)

/-- **C3, counterexample to the claim as stated.** `"Visit https:"` is a
character-by-character prefix of a bot reply containing a URL, and
`sanitizeTypingDisplay` leaves it unchanged: the partial raw URL fragment
`https:` stays visible. -/
theorem c3_counterexample :
    str ("Visit https:") = (str ("Visit https://spanmor.com.au")).take 12 ∧
    sanitizeCore (str ("Visit https:")) = str ("Visit https:") ∧
    containsSeq (str ("https:")) (sanitizeCore (str ("Visit https:"))) = true := by
  exact ⟨by decide, by decide, by decide⟩

/-! ## C4: sanitiser idempotence -/

theorem containsBad_of_drop :
    ∀ (s : Str) (n : Nat), badAt (s.drop n) = true → containsBad s = true := by
  intro s
  induction s with
  | nil =>
    intro n h
    simp only [List.drop_nil] at h
    exact absurd h (by decide)
  | cons c r ih =>
    intro n h
    cases n with
    | zero =>
      unfold containsBad
      rw [Bool.or_eq_true]
      exact Or.inl (by simpa using h)
    | succ n2 =>
      unfold containsBad
      rw [Bool.or_eq_true]
      exact Or.inr (ih n2 (by simpa using h))

/-- A complete-Markdown-link match contains a raw URL occurrence. -/
theorem mdTryMatch_some_containsBad {s : Str} {m : MdMatch}
    (h : mdTryMatch s = some m) : containsBad s = true := by
  obtain ⟨rest, rest2, k, tail, hs, hlab, _, hdrop, hk, _, hrun, _, _⟩ := mdTryMatch_spec h
  have hbad2 : badAt rest2 = true := by
    unfold badAt
    rw [hk]
    dsimp only
    cases hd : rest2.drop k with
    | nil =>
      rw [hd] at hrun
      simp at hrun
    | cons e t3 =>
      dsimp only
      rw [hd] at hrun
      by_cases hp : ((!(isWs e)) && e != ')') = true
      · simp only [Bool.and_eq_true] at hp
        exact hp.1
      · rw [List.takeWhile_cons_of_neg (by simpa using hp)] at hrun
        exact absurd rfl hrun
  have hrest2 : rest.drop (m.label.length + 2) = rest2 := by
    have := congrArg (List.drop 2) hdrop
    rw [List.drop_drop] at this
    simpa [Nat.add_comm] using this
  rw [hs]
  refine containsBad_of_drop _ (m.label.length + 3) ?_
  have : ('[' :: rest).drop (m.label.length + 3) = rest.drop (m.label.length + 2) := by
    rw [show m.label.length + 3 = (m.label.length + 2) + 1 by omega]
    simp
  rw [this, hrest2]
  exact hbad2

theorem mdReplace_nil : mdReplace [] = [] := rfl

/-- Rule 1 is the identity on a line without raw URL occurrences. -/
theorem noBad_mdReplace_id :
    ∀ s : Str, containsBad s = false → mdReplace s = s := by
  refine strongRecStr ?_
  intro s ih hb
  cases s with
  | nil => rfl
  | cons c rest =>
    rw [mdReplace_cons]
    cases hm : mdTryMatch (c :: rest) with
    | some m =>
      rw [mdTryMatch_some_containsBad hm] at hb
      exact absurd hb (by simp)
    | none =>
      unfold containsBad at hb
      rw [Bool.or_eq_false_iff] at hb
      rw [ih rest (by simp) hb.2]

/-- Rule 2 is the identity on a line without raw URL occurrences. -/
theorem noBad_rb_id :
    ∀ s : Str, containsBad s = false → rb s = s := by
  refine strongRecStr ?_
  intro s ih hb
  cases s with
  | nil => rfl
  | cons c rest =>
    rw [rb_cons]
    cases hm : matchBare (c :: rest) with
    | some n =>
      have := badAt_of_matchBare hm
      unfold containsBad at hb
      rw [Bool.or_eq_false_iff] at hb
      rw [this] at hb
      exact absurd hb.1 (by simp)
    | none =>
      unfold containsBad at hb
      rw [Bool.or_eq_false_iff] at hb
      rw [ih rest (by simp) hb.2]

/-- Rule 3 is the identity when its regex does not match. -/
theorem collapseLoop_none (fuel : Nat) {s : Str}
    (h : mdPartialReplace s = none) : collapseLoop fuel s = s := by
  cases fuel with
  | zero => rfl
  | succ f =>
    unfold collapseLoop
    rw [h]

theorem mdPartialHere_label :
    ∀ {s label : Str}, mdPartialHere s = some label →
      ∃ rest, s = '[' :: rest ∧ label = rest.takeWhile (fun c => c != ']') := by
  intro s label h
  unfold mdPartialHere at h
  split at h
  case h_1 rest =>
    dsimp only at h
    split at h
    · simp at h
    · split at h
      · split at h
        · simp only [Option.some.injEq] at h
          exact ⟨rest, rfl, h.symm⟩
        · simp at h
      · simp at h
  · simp at h

theorem mem_mdPartialReplace {s s2 : Str} {c : Char}
    (h : mdPartialReplace s = some s2) (hc : c ∈ s2) : c ∈ s := by
  induction s generalizing s2 with
  | nil => simp [mdPartialReplace] at h
  | cons x r ih =>
    unfold mdPartialReplace at h
    cases hh : mdPartialHere (x :: r) with
    | some label =>
      rw [hh] at h
      simp only [Option.some.injEq] at h
      subst h
      obtain ⟨rest2, hs, hlab⟩ := mdPartialHere_label hh
      simp only [List.cons.injEq] at hs
      rw [hlab, ← hs.2] at hc
      exact List.mem_cons_of_mem _ (mem_of_mem_takeWhile hc)
    | none =>
      rw [hh] at h
      cases hr : mdPartialReplace r with
      | none => rw [hr] at h; simp at h
      | some t =>
        rw [hr] at h
        simp only [Option.map_some', Option.some.injEq] at h
        subst h
        rcases List.mem_cons.mp hc with rfl | hc2
        · exact List.mem_cons_self _ _
        · exact List.mem_cons_of_mem _ (ih hr hc2)

theorem mem_collapseLoop :
    ∀ (fuel : Nat) (s : Str) (c : Char), c ∈ collapseLoop fuel s → c ∈ s := by
  intro fuel
  induction fuel with
  | zero => intro s c h; exact h
  | succ f ih =>
    intro s c h
    unfold collapseLoop at h
    cases hr : mdPartialReplace s with
    | none => rw [hr] at h; exact h
    | some s2 =>
      rw [hr] at h
      exact mem_mdPartialReplace hr (ih s2 c h)

theorem mem_rb : ∀ (s : Str) (c : Char), c ∈ rb s → c ∈ s := by
  refine strongRecStr ?_
  intro s ih c h
  cases s with
  | nil => rw [rb_nil] at h; exact h
  | cons x rest =>
    rw [rb_cons] at h
    cases hm : matchBare (x :: rest) with
    | some n =>
      rw [hm] at h
      dsimp only at h
      have hlt : ((x :: rest).drop n).length < (x :: rest).length := by
        have := matchBare_pos hm
        simp only [List.length_drop, List.length_cons]
        omega
      exact mem_of_mem_drop (ih _ hlt c h)
    | none =>
      rw [hm] at h
      dsimp only at h
      rcases List.mem_cons.mp h with rfl | h2
      · exact List.mem_cons_self _ _
      · exact List.mem_cons_of_mem _ (ih rest (by simp) c h2)

theorem mem_mdReplace : ∀ (s : Str) (c : Char), c ∈ mdReplace s → c ∈ s := by
  refine strongRecStr ?_
  intro s ih c h
  cases s with
  | nil => rw [mdReplace_nil] at h; exact h
  | cons x rest =>
    rw [mdReplace_cons] at h
    cases hm : mdTryMatch (x :: rest) with
    | some m =>
      rw [hm] at h
      dsimp only at h
      rcases List.mem_append.mp h with h2 | h2
      · obtain ⟨rest', rest2, k, tail, hs, hlab, _, _, _, _, _, _, _⟩ := mdTryMatch_spec hm
        simp only [List.cons.injEq] at hs
        rw [hlab] at h2
        rw [← hs.2] at h2
        exact List.mem_cons_of_mem _ (mem_of_mem_takeWhile h2)
      · have hlt : ((x :: rest).drop m.len).length < (x :: rest).length := by
          have := mdTryMatch_pos hm
          simp only [List.length_drop, List.length_cons]
          omega
        exact mem_of_mem_drop (ih _ hlt c h2)
    | none =>
      rw [hm] at h
      dsimp only at h
      rcases List.mem_cons.mp h with rfl | h2
      · exact List.mem_cons_self _ _
      · exact List.mem_cons_of_mem _ (ih rest (by simp) c h2)

theorem splitOnChar_ne_nil (sep : Char) : ∀ s : Str, splitOnChar sep s ≠ [] := by
  intro s
  cases s with
  | nil => simp [splitOnChar]
  | cons c r =>
    unfold splitOnChar
    split
    · simp
    · cases h : splitOnChar sep r <;> simp

theorem mem_splitOnChar_no_sep (sep : Char) :
    ∀ (s : Str) (l : Str), l ∈ splitOnChar sep s → sep ∉ l := by
  intro s
  induction s with
  | nil =>
    intro l h
    simp only [splitOnChar, List.mem_singleton] at h
    subst h
    simp
  | cons c r ih =>
    intro l h
    unfold splitOnChar at h
    split at h
    · rcases List.mem_cons.mp h with rfl | h2
      · simp
      · exact ih l h2
    case isFalse hc =>
      cases hr : splitOnChar sep r with
      | nil => exact absurd hr (splitOnChar_ne_nil sep r)
      | cons hd tl =>
        rw [hr] at h
        rcases List.mem_cons.mp h with rfl | h2
        · intro hmem
          rcases List.mem_cons.mp hmem with rfl | h3
          · exact hc rfl
          · exact ih hd (by rw [hr]; exact List.mem_cons_self _ _) h3
        · exact ih l (by rw [hr]; exact List.mem_cons_of_mem _ h2)

theorem splitOnChar_cons (sep c : Char) (r : Str) :
    splitOnChar sep (c :: r) =
      if c = sep then [] :: splitOnChar sep r
      else match splitOnChar sep r with
        | [] => [[c]]
        | h :: t => (c :: h) :: t := rfl

theorem splitOnChar_no_sep {sep : Char} :
    ∀ {l : Str}, sep ∉ l → splitOnChar sep l = [l] := by
  intro l
  induction l with
  | nil => intro _; rfl
  | cons c r ih =>
    intro h
    have hc : ¬ c = sep := fun hcc => h (by rw [hcc]; exact List.mem_cons_self _ _)
    rw [splitOnChar_cons, if_neg hc]
    rw [ih (fun hmem => h (List.mem_cons_of_mem _ hmem))]

theorem splitOnChar_append_sep {sep : Char} :
    ∀ {l : Str} (rest : Str), sep ∉ l →
      splitOnChar sep (l ++ sep :: rest) = l :: splitOnChar sep rest := by
  intro l
  induction l with
  | nil =>
    intro rest _
    simp only [List.nil_append]
    rw [splitOnChar_cons, if_pos rfl]
  | cons c r ih =>
    intro rest h
    have hc : ¬ c = sep := fun hcc => h (by rw [hcc]; exact List.mem_cons_self _ _)
    simp only [List.cons_append]
    rw [splitOnChar_cons, if_neg hc]
    rw [ih rest (fun hmem => h (List.mem_cons_of_mem _ hmem))]

theorem splitOnChar_joinWithChar {sep : Char} :
    ∀ {ls : List Str}, ls ≠ [] → (∀ l ∈ ls, sep ∉ l) →
      splitOnChar sep (joinWithChar sep ls) = ls := by
  intro ls
  induction ls with
  | nil => intro h _; exact absurd rfl h
  | cons l rest ih =>
    intro _ hall
    cases rest with
    | nil =>
      show splitOnChar sep l = [l]
      exact splitOnChar_no_sep (hall l (List.mem_cons_self _ _))
    | cons l2 rest2 =>
      show splitOnChar sep (l ++ sep :: joinWithChar sep (l2 :: rest2)) = _
      rw [splitOnChar_append_sep _ (hall l (List.mem_cons_self _ _))]
      rw [ih (by simp) (fun x hx => hall x (List.mem_cons_of_mem _ hx))]

/-! ## C4: idempotence after stabilisation, and the label of a single link -/

/-- The trailing-fragment regex needs a `]` later in the line, so it cannot
match a line without `]`. -/
theorem mdPartialHere_no_rbracket : ∀ {s : Str}, ']' ∉ s → mdPartialHere s = none := by
  intro s
  unfold mdPartialHere
  split
  · rename_i rest
    intro h
    have hrest : ']' ∉ rest := fun hm => h (List.mem_cons_of_mem _ hm)
    have hall : rest.all (fun c => c != ']') = true := by
      rw [List.all_eq_true]
      intro x hx
      simp only [bne_iff_ne, ne_eq]
      intro he
      exact hrest (he ▸ hx)
    simp only [takeWhile_eq_self_of_all hall, List.drop_length]
    split
    · rfl
    · rfl
  · intro _
    rfl

theorem mdPartialReplace_no_rbracket : ∀ {s : Str}, ']' ∉ s → mdPartialReplace s = none := by
  intro s
  induction s with
  | nil => intro _; rfl
  | cons c rest ih =>
    intro h
    unfold mdPartialReplace
    rw [mdPartialHere_no_rbracket h, ih (fun hm => h (List.mem_cons_of_mem _ hm))]
    rfl

/-- A line without raw URL occurrences on which rule 3 does not fire is a
fixed point of the per-line sanitiser. -/
theorem sanitizeLine_id {y : Str} (hb : containsBad y = false)
    (hp : mdPartialReplace y = none) : sanitizeLine y = y := by
  unfold sanitizeLine
  rw [noBad_mdReplace_id y hb, noBad_rb_id y hb]
  exact collapseLoop_none 10 hp

/-- Idempotence of the sanitiser on inputs whose lines are stable after
rules 1 and 2 (rule 3 finds nothing to collapse). -/
theorem sanitizeCore_idem_of_stable {s : Str}
    (hyp : ∀ line ∈ splitOnChar '\n' s, mdPartialReplace (rb (mdReplace line)) = none) :
    sanitizeCore (sanitizeCore s) = sanitizeCore s := by
  have hM : ∀ l2 ∈ (splitOnChar '\n' s).map sanitizeLine,
      containsBad l2 = false ∧ mdPartialReplace l2 = none ∧ '\n' ∉ l2 := by
    intro l2 hl2
    obtain ⟨line, hline, rfl⟩ := List.mem_map.mp hl2
    have he : sanitizeLine line = rb (mdReplace line) := by
      unfold sanitizeLine
      exact collapseLoop_none 10 (hyp line hline)
    rw [he]
    refine ⟨containsBad_rb _, hyp line hline, ?_⟩
    intro hmem
    exact mem_splitOnChar_no_sep '\n' s line hline
      (mem_mdReplace line _ (mem_rb _ _ hmem))
  have hMne : (splitOnChar '\n' s).map sanitizeLine ≠ [] := by
    intro hc
    exact splitOnChar_ne_nil '\n' s (List.map_eq_nil_iff.mp hc)
  have hMnosep : ∀ l2 ∈ (splitOnChar '\n' s).map sanitizeLine, '\n' ∉ l2 :=
    fun l2 hl2 => (hM l2 hl2).2.2
  have hfix : ((splitOnChar '\n' s).map sanitizeLine).map sanitizeLine
      = (splitOnChar '\n' s).map sanitizeLine := by
    have h1 : ((splitOnChar '\n' s).map sanitizeLine).map sanitizeLine
        = ((splitOnChar '\n' s).map sanitizeLine).map id :=
      List.map_congr_left (fun l2 hl2 => by
        obtain ⟨hb, hp, _⟩ := hM l2 hl2
        show sanitizeLine l2 = l2
        exact sanitizeLine_id hb hp)
    rw [h1, List.map_id]
  unfold sanitizeCore
  rw [splitOnChar_joinWithChar hMne hMnosep, hfix]

/-- Third stage of `mdTryMatch` (the close-paren check), split out to state
the computation rules of the matcher. -/
def mdStage3 (label rest2 : Str) (k : Nat) (run : Str) : Str → Option MdMatch
  | ')' :: _ => some ⟨label, rest2.take k ++ run, 1 + label.length + 2 + k + run.length + 1⟩
  | _ => none

/-- Second stage of `mdTryMatch` (scheme and URL-run). -/
def mdStage2 (label rest2 : Str) : Option MdMatch :=
  match schemeLen rest2 with
  | some k =>
    if ((rest2.drop k).takeWhile (fun c => !(isWs c) && c != ')')).length == 0 then none
    else mdStage3 label rest2 k ((rest2.drop k).takeWhile (fun c => !(isWs c) && c != ')'))
      ((rest2.drop k).drop ((rest2.drop k).takeWhile (fun c => !(isWs c) && c != ')')).length)
  | none => none

/-- First stage of `mdTryMatch` (the `](` separator). -/
def mdStage1 (label : Str) : Str → Option MdMatch
  | ']' :: '(' :: rest2 => mdStage2 label rest2
  | _ => none

theorem mdTryMatch_eq (rest : Str) :
    mdTryMatch ('[' :: rest) =
      if (rest.takeWhile (fun c => c != ']')).length == 0 then none
      else mdStage1 (rest.takeWhile (fun c => c != ']'))
        (rest.drop (rest.takeWhile (fun c => c != ']')).length) := rfl

theorem mdStage2_eq (label : Str) {rest2 : Str} {k : Nat} (hk : schemeLen rest2 = some k) :
    mdStage2 label rest2 =
      if ((rest2.drop k).takeWhile (fun c => !(isWs c) && c != ')')).length == 0 then none
      else mdStage3 label rest2 k ((rest2.drop k).takeWhile (fun c => !(isWs c) && c != ')'))
        ((rest2.drop k).drop ((rest2.drop k).takeWhile (fun c => !(isWs c) && c != ')')).length) := by
  unfold mdStage2
  rw [hk]

theorem schemeLen_https_append (x : Str) : schemeLen (str ("https://") ++ x) = some 8 := rfl

theorem schemeLen_http_append (x : Str) : schemeLen (str ("http://") ++ x) = some 7 := rfl

/-- The complete-link matcher succeeds on `[label](<scheme><run>)` and
returns exactly the label, URL, and overall length. -/
theorem mdTryMatch_link {label run schemeStr : Str} {k : Nat}
    (hne : label ≠ []) (hbr : ']' ∉ label) (hrne : run ≠ [])
    (hrall : run.all (fun c => !(isWs c) && c != ')') = true)
    (hslen : schemeStr.length = k)
    (hsch : schemeLen (schemeStr ++ (run ++ [')'])) = some k) :
    mdTryMatch ('[' :: (label ++ (']' :: '(' :: (schemeStr ++ (run ++ [')'])))))
      = some ⟨label, schemeStr ++ run, 1 + label.length + 2 + k + run.length + 1⟩ := by
  have hlab_all : label.all (fun c => c != ']') = true := by
    rw [List.all_eq_true]
    intro x hx
    simp only [bne_iff_ne, ne_eq]
    intro he
    exact hbr (he ▸ hx)
  have htw : (label ++ (']' :: '(' :: (schemeStr ++ (run ++ [')'])))).takeWhile
      (fun c => c != ']') = label := by
    rw [takeWhile_append_of_all _ hlab_all]
    have h1 : ((']' :: '(' :: (schemeStr ++ (run ++ [')']))) : Str).takeWhile
        (fun c => c != ']') = [] :=
      List.takeWhile_cons_of_neg (by decide)
    rw [h1, List.append_nil]
  have hlen1 : ¬((label.length == 0) = true) := by
    intro hc
    exact hne (List.length_eq_zero.mp (eq_of_beq hc))
  have hdr : (label ++ (']' :: '(' :: (schemeStr ++ (run ++ [')'])))).drop label.length
      = ']' :: '(' :: (schemeStr ++ (run ++ [')'])) := List.drop_left _ _
  rw [mdTryMatch_eq, htw, if_neg hlen1, hdr]
  show mdStage2 label (schemeStr ++ (run ++ [')']))
      = some ⟨label, schemeStr ++ run, 1 + label.length + 2 + k + run.length + 1⟩
  rw [mdStage2_eq label hsch]
  have hdk : (schemeStr ++ (run ++ [')'])).drop k = run ++ [')'] := by
    rw [← hslen]
    exact List.drop_left _ _
  rw [hdk]
  have htw2 : (run ++ [')']).takeWhile (fun c => !(isWs c) && c != ')') = run := by
    rw [takeWhile_append_of_all _ hrall]
    have h1 : (([')']) : Str).takeWhile (fun c => !(isWs c) && c != ')') = [] :=
      List.takeWhile_cons_of_neg (by decide)
    rw [h1, List.append_nil]
  rw [htw2]
  have hlen2 : ¬((run.length == 0) = true) := by
    intro hc
    exact hrne (List.length_eq_zero.mp (eq_of_beq hc))
  rw [if_neg hlen2]
  have hdrr : (run ++ [')']).drop run.length = [')'] := List.drop_left _ _
  rw [hdrr]
  have hst3 : mdStage3 label (schemeStr ++ (run ++ [')'])) k run ([')'])
      = some ⟨label, (schemeStr ++ (run ++ [')'])).take k ++ run,
          1 + label.length + 2 + k + run.length + 1⟩ := rfl
  rw [hst3]
  have htk : (schemeStr ++ (run ++ [')'])).take k = schemeStr := by
    rw [← hslen]
    exact List.take_left _ _
  rw [htk]

/-- The per-line sanitiser turns a line that is exactly one complete
Markdown link into the link label. -/
theorem sanitizeLine_link {label run schemeStr : Str} {k : Nat}
    (hne : label ≠ []) (hbr : ']' ∉ label) (hbad : containsBad label = false)
    (hrne : run ≠ [])
    (hrall : run.all (fun c => !(isWs c) && c != ')') = true)
    (hslen : schemeStr.length = k)
    (hsch : schemeLen (schemeStr ++ (run ++ [')'])) = some k) :
    sanitizeLine ('[' :: (label ++ (']' :: '(' :: (schemeStr ++ (run ++ [')']))))) = label := by
  have hmt := mdTryMatch_link hne hbr hrne hrall hslen hsch
  unfold sanitizeLine
  rw [mdReplace_cons, hmt]
  dsimp only
  have hdropL : (('[' :: (label ++ (']' :: '(' :: (schemeStr ++ (run ++ [')']))))) : Str).drop
      (1 + label.length + 2 + k + run.length + 1) = [] := by
    apply List.drop_eq_nil_of_le
    simp only [List.length_cons, List.length_append, List.length_nil]
    omega
  rw [hdropL, mdReplace_nil, List.append_nil, noBad_rb_id label hbad]
  exact collapseLoop_none 10 (mdPartialReplace_no_rbracket hbr)

/-- The sanitiser turns a text that is exactly one complete Markdown link
into the link label. -/
theorem sanitizeCore_single_link {label url run : Str}
    (hne : label ≠ []) (hbr : ']' ∉ label) (hnl : '\n' ∉ label)
    (hbad : containsBad label = false)
    (hurl : url = str ("http://") ++ run ∨ url = str ("https://") ++ run)
    (hrne : run ≠ [])
    (hrall : run.all (fun c => !(isWs c) && c != ')') = true) :
    sanitizeCore ('[' :: (label ++ (']' :: '(' :: (url ++ [')'])))) = label := by
  have hnlrun : '\n' ∉ run := by
    intro hm
    have h2 := List.all_eq_true.mp hrall _ hm
    simp [isWs] at h2
  have hfull : ∀ ss : Str, '\n' ∉ ss →
      '\n' ∉ (('[' :: (label ++ (']' :: '(' :: (ss ++ (run ++ [')']))))) : Str) := by
    intro ss hss hm
    simp only [List.mem_cons, List.mem_append, List.mem_singleton] at hm
    rcases hm with h | h | h | h | h | h | h
    · exact absurd h (by decide)
    · exact hnl h
    · exact absurd h (by decide)
    · exact absurd h (by decide)
    · exact hss h
    · exact hnlrun h
    · exact absurd h (by decide)
  rcases hurl with rfl | rfl
  · rw [List.append_assoc (str ("http://")) run ([')'])]
    unfold sanitizeCore
    rw [splitOnChar_no_sep (hfull _ (by decide))]
    show sanitizeLine ('[' :: (label ++ (']' :: '(' :: (str ("http://") ++ (run ++ [')']))))) = label
    exact sanitizeLine_link hne hbr hbad hrne hrall (by decide) (schemeLen_http_append _)
  · rw [List.append_assoc (str ("https://")) run ([')'])]
    unfold sanitizeCore
    rw [splitOnChar_no_sep (hfull _ (by decide))]
    show sanitizeLine ('[' :: (label ++ (']' :: '(' :: (str ("https://") ++ (run ++ [')']))))) = label
    exact sanitizeLine_link hne hbr hbad hrne hrall (by decide) (schemeLen_https_append _)

/-- C4: the sanitiser is idempotent on texts whose lines, after rule 1
(complete links to labels) and rule 2 (bare URLs removed), contain no
trailing Markdown-link fragment; and a text that is exactly one complete
Markdown link `[label](url)` (nonempty label without `]` or newline and
without a raw URL occurrence, `url` an http(s) scheme followed by a
nonempty run of characters that are neither whitespace nor `)`)
sanitises to exactly its label. -/
theorem c4_sanitizer_idem_and_label :
    (∀ s : Str,
       (∀ line ∈ splitOnChar '\n' s, mdPartialReplace (rb (mdReplace line)) = none) →
       sanitizeCore (sanitizeCore s) = sanitizeCore s) ∧
    (∀ label url run : Str,
       label ≠ [] → ']' ∉ label → '\n' ∉ label → containsBad label = false →
       (url = str ("http://") ++ run ∨ url = str ("https://") ++ run) → run ≠ [] →
       run.all (fun c => !(isWs c) && c != ')') = true →
       sanitizeCore ('[' :: label ++ ']' :: '(' :: url ++ [')']) = label) :=
  ⟨fun _ hyp => sanitizeCore_idem_of_stable hyp,
   fun _ _ _ hne hbr hnl hbad hurl hrne hrall => by
     have h := sanitizeCore_single_link hne hbr hnl hbad hurl hrne hrall
     simpa only [List.cons_append, List.append_assoc] using h⟩

theorem c4_sanitizer_idem_and_label_witness :
    sanitizeCore (sanitizeCore (str ("hello [A](https://spanmor.com.au/x) world")))
      = sanitizeCore (str ("hello [A](https://spanmor.com.au/x) world")) ∧
    sanitizeCore ('[' :: str ("Docs") ++ ']' :: '(' ::
        (str ("https://") ++ str ("spanmor.com.au/x")) ++ [')'])
      = str ("Docs") :=
  ⟨c4_sanitizer_idem_and_label.1 _ (by decide),
   c4_sanitizer_idem_and_label.2 (str ("Docs")) _ (str ("spanmor.com.au/x"))
     (by decide) (by decide) (by decide) (by decide) (Or.inr rfl) (by decide) (by decide)⟩

/-- The input `https:/[/x](y https://b)` has no trailing-fragment match on
any of its lines, yet the sanitiser is not idempotent on it: rule 2 glues
the text into a new complete link that a second pass removes. -/
theorem c4_counterexample :
    (∀ line ∈ splitOnChar '\n' (str ("https:/[/x](y https://b)")),
       mdPartialReplace line = none) ∧
    sanitizeCore (sanitizeCore (str ("https:/[/x](y https://b)"))) ≠
      sanitizeCore (str ("https:/[/x](y https://b)")) :=
  ⟨by decide, by decide⟩


end SpanmorChat
